import Mathlib

/-!
Verification of the camera-timestamp extraction module
(`ibllib/io/extractors/camera.py`).

The Python module reconciles camera frame counters and pin-state traces with
audio TTL times to rebuild per-frame timestamps.  This file gives a shallow
embedding of its core functions over exact rationals (`ℚ` replaces IEEE
floats; NaN/inf values are represented by `Option.none`) and proves the
behavioural properties stated in the design documentation.

Modelling conventions:
* numpy arrays become `List`s; fancy indexing becomes `map`/`getD`.
* A Python `assert` failure, raised exception or index error is a fatal
  abort; each function returns `Except E α` (or `Option`), with one error
  tag per abort site (crash sites that the spec does not distinguish may
  share a tag).
* `np.ma.masked_invalid(arr)` masks non-finite entries; `MaskedArray.filled()`
  substitutes numpy's default float fill value `1e20` for masked entries.
  This fill value is modelled exactly (`fillValue = 10^20`).
* `np.searchsorted(a, v)` (side `left`) on a sorted array equals the length
  of the longest prefix of elements `< v`; the inputs it is applied to are
  asserted sorted by the code, so the `takeWhile` form is faithful.
* Python `round` and `np.round` round half to even (`pyround`).
-/

instance {ε α : Type} [DecidableEq ε] [DecidableEq α] : DecidableEq (Except ε α)
  | .error e₁, .error e₂ =>
    if h : e₁ = e₂ then isTrue (h ▸ rfl) else isFalse (fun hc => h (Except.error.inj hc))
  | .error _, .ok _ => isFalse (fun hc => Except.noConfusion hc)
  | .ok _, .error _ => isFalse (fun hc => Except.noConfusion hc)
  | .ok a₁, .ok a₂ =>
    if h : a₁ = a₂ then isTrue (h ▸ rfl) else isFalse (fun hc => h (Except.ok.inj hc))

/-- numpy `np.diff` on a rational array. -/
def npdiff (xs : List ℚ) : List ℚ :=
  List.zipWith (fun a b => b - a) xs xs.tail

/-- numpy `np.diff` on an integer array (used for GPIO/polarity traces). -/
def npdiffZ (xs : List ℤ) : List ℤ :=
  List.zipWith (fun a b => b - a) xs xs.tail

/-- `np.searchsorted(xs, v)` (side `left`) for a sorted rational array:
the number of leading elements strictly below `v`. -/
def searchsorted (xs : List ℚ) (v : ℚ) : ℕ :=
  (xs.takeWhile (fun t => decide (t < v))).length

/-- `np.searchsorted` on an array that may hold non-finite entries (`none`);
numpy's comparisons order NaN/inf after every finite value, so a `none`
entry never counts as `< v`. -/
def searchsortedO (xs : List (Option ℚ)) (v : ℚ) : ℕ :=
  (xs.takeWhile (fun o => match o with
    | some t => decide (t < v)
    | none => false)).length

/-- Sorted insertion (ascending), for `np.median`'s internal sort. -/
def insortInsert (a : ℚ) : List ℚ → List ℚ
  | [] => [a]
  | b :: t => if a ≤ b then a :: b :: t else b :: insortInsert a t

/-- Insertion sort (ascending). -/
def insort : List ℚ → List ℚ
  | [] => []
  | a :: t => insortInsert a (insort t)

/-- `np.median` of a non-empty rational array: middle element of the sorted
array, or the mean of the two middle elements for even length. -/
def median (xs : List ℚ) : ℚ :=
  let s := insort xs
  if xs.length % 2 = 1 then s.getD (xs.length / 2) 0
  else (s.getD (xs.length / 2 - 1) 0 + s.getD (xs.length / 2) 0) / 2

/-- `np.all(np.diff(xs) > 0)`: the trace is strictly increasing. -/
def allDiffPos (xs : List ℚ) : Bool :=
  (npdiff xs).all (fun d => decide (0 < d))

/-- `np.all(np.diff(xs) > 0)` for an integer-valued array (frame counter). -/
def allDiffPosN (xs : List ℕ) : Bool :=
  (List.zipWith (fun a b => decide (a < b)) xs xs.tail).all (fun b => b)

/-- Python `round` / `np.round`: round half to even. -/
def pyround (q : ℚ) : ℤ :=
  if q - ⌊q⌋ < 1 / 2 then ⌊q⌋
  else if 1 / 2 < q - ⌊q⌋ then ⌊q⌋ + 1
  else if 2 ∣ ⌊q⌋ then ⌊q⌋ else ⌊q⌋ + 1

/-- `(pin_state > 0).argmax()` on a boolean trace: index of the first high
sample, `0` when the trace is all-low (numpy's `argmax` convention). -/
def firstUptick (ps : List Bool) : ℕ :=
  (ps.findIdx? (fun b => b)).getD 0

/-- `sum(np.diff(pin_state.astype(int)) == 1)`: number of low-to-high
transitions of the trace. -/
def numRising (ps : List Bool) : ℕ :=
  (List.zipWith (fun a b => !a && b) ps ps.tail).count true

/-- `np.insert(np.diff(g.astype(int)) != 0, 0, False)`: per-sample flag of a
pin-state transition (the first sample is never flagged). -/
def flipsOf (g : List Bool) : List Bool :=
  false :: List.zipWith (fun a b => decide (a ≠ b)) g g.tail

/-- `np.insert(np.diff(g.astype(int)) == 1, 0, False)`: rising transitions. -/
def lowToHigh (g : List Bool) : List Bool :=
  false :: List.zipWith (fun a b => !a && b) g g.tail

/-- `np.insert(np.diff(g.astype(int)) == -1, 0, False)`: falling transitions. -/
def highToLow (g : List Bool) : List Bool :=
  false :: List.zipWith (fun a b => a && !b) g g.tail

/-- Boolean-mask selection `ts[mask]` of numpy (masks of equal length). -/
def maskSel (ts : List ℚ) (m : List Bool) : List ℚ :=
  (List.zip ts m).filterMap (fun p => if p.2 then some p.1 else none)

/-- Stride-two slice `xs[::2]`. -/
def stride2 {α : Type} : List α → List α
  | [] => []
  | [a] => [a]
  | a :: _ :: rest => a :: stride2 rest

/-- Interleaving used for `a[::2] = xs; a[1::2] = ys`: element `2i` comes
from `xs`, element `2i+1` from `ys` (in the reachable states `xs` is as long
as `ys` or one element longer). -/
def interleave : List ℚ → List ℚ → List ℚ
  | [], _ => []
  | x :: xs, [] => x :: xs
  | x :: xs, y :: ys => x :: y :: interleave xs ys

/-- Indices of the `true` entries of a boolean array (`np.where(m)[0]`). -/
def trueIndices (m : List Bool) : List ℕ :=
  (m.enum.filter (fun p => p.2)).map (fun p => p.1)

/-! ## EventMatcher: `attribute_times`

`attribute_times(arr, events, tol=.1, injective=True, take='first')` builds a
masked array over `arr` (non-finite entries start masked), and for each event
`x` computes `dx = |stack.filled() - x|`.  `filled()` substitutes numpy's
default fill value `1e20` for masked entries.  If `min dx < tol` the first
index within tolerance (`take='first'`) or the argmin (`take='closest'`) is
assigned and `mask[idx] = injective`.  `np.min`/comparisons propagate NaN:
a NaN in `dx` (an unmasked non-finite entry, reachable only with
`injective=False`) makes the comparison false.  An empty `arr` with a
non-empty `events` crashes on `dx.min()` (modelled as `Option.none`).
The `ValueError` branch for an invalid `take` string is not modelled (the
parameter is a two-valued Bool here). -/

/-- numpy's default fill value for float64 masked arrays (`1e20`). -/
def fillValue : ℚ := 10 ^ 20

/-- `dx = np.abs(stack.filled() - x)`: masked entries contribute
`|1e20 - x|`; an unmasked non-finite entry contributes NaN (`none`). -/
def dxAt (arr : List (Option ℚ)) (mask : List Bool) (x : ℚ) : List (Option ℚ) :=
  List.zipWith
    (fun v m => if m then some |fillValue - x| else Option.map (fun r => |r - x|) v)
    arr mask

/-- `dx.min() < tol` with numpy NaN semantics: false when any entry is NaN. -/
def matchCond (dx : List (Option ℚ)) (tol : ℚ) : Bool :=
  dx.all (fun o => o.isSome) &&
    match (dx.filterMap id).min? with
    | some m => decide (m < tol)
    | none => false

/-- Index selection: `np.where(dx < tol)[0][0]` for `take='first'`,
`dx.argmin()` (first index attaining the minimum) for `take='closest'`. -/
def pickIdx (dx : List (Option ℚ)) (tol : ℚ) (takeFirst : Bool) : ℕ :=
  if takeFirst then
    dx.findIdx (fun o => match o with
      | some d => decide (d < tol)
      | none => false)
  else
    dx.findIdx (fun o => decide (o = (dx.filterMap id).min?))

/-- The per-event loop of `attribute_times` carrying the evolving mask. -/
def attrLoop (arr : List (Option ℚ)) (tol : ℚ) (inj takeFirst : Bool) :
    List ℚ → List Bool → List ℤ
  | [], _ => []
  | x :: xs, mask =>
    let dx := dxAt arr mask x
    if matchCond dx tol then
      let idx := pickIdx dx tol takeFirst
      (idx : ℤ) :: attrLoop arr tol inj takeFirst xs (mask.set idx inj)
    else
      (-1) :: attrLoop arr tol inj takeFirst xs mask

/-- `attribute_times`.  `arr` entries are `none` when non-finite (those start
masked).  Returns `none` for the `dx.min()` crash on an empty candidate
array, otherwise the assigned index array (`-1` = unmatched). -/
def attribute_times (arr : List (Option ℚ)) (events : List ℚ) (tol : ℚ)
    (inj takeFirst : Bool) : Option (List ℤ) :=
  if arr.isEmpty && !events.isEmpty then none
  else some (attrLoop arr tol inj takeFirst events (arr.map (fun o => o.isNone)))

/-! ## PinStateGroomer: `groom_pin_state`

`groom_pin_state(gpio, audio, ts)` truncates `gpio` when the frame times are
fewer (fatal when they are more), checks the audio-front preconditions, and
either passes the TTL times through (equal counts) or attributes each pin
state transition to a TTL front with `attribute_times` (tol 0.1, injective,
take='first') and interleaves the matched onset/offset times.  The final
drift fit `sync_timestamps` (ibllib.dsp.utils) is an external collaborator
outside this repository, so the model returns the groomed TTL sequence
together with `ts[flips]`, the camera-side transition times handed to it. -/

inductive GroomErr where
  | sizeMismatch   -- `assert ts.size < gpio.size` (more frame times than GPIO)
  | audioDim       -- `assert audio['times'].size == audio['polarities'].size`
  | polarity       -- `assert np.all(np.abs(np.diff(audio['polarities'])) == 2)`
  | firstHigh      -- `assert audio['polarities'][0] == 1` (also empty polarities)
  | audioOrder     -- `assert np.all(np.diff(audio['times']) > 0)`
  | gpioStart      -- `assert gpio[0] == False` (also empty gpio)
  | noFlips        -- `assert gpio.any()`
  | attrCrashUp    -- IndexError/ValueError computing the onset attribution
  | unattrUp       -- `assert np.all(assigned > -1)` for the rising edges
  | attrCrashDown  -- IndexError/ValueError computing the offset attribution
  | unattrDown     -- `assert np.all(assigned > -1)` for the falling edges
  | interleaveErr  -- broadcast failure writing `audio_[::2]` / `audio_[1::2]`
  deriving Repr, DecidableEq

/-- Onset attribution (camera.py lines 489-495): zero-reference the rising
pin-state transition times and the even-indexed TTL times to their own first
elements, attribute each uptick to the first onset within 100 ms (injective),
require every uptick attributed, and return the matched onset times
`audio['times'][::2][assigned]`. -/
def groomOnsets (gpio : List Bool) (audio_times : List ℚ) (ts : List ℚ) :
    Except GroomErr (List ℚ) :=
  match maskSel ts (lowToHigh gpio) with
  | [] => .error .attrCrashUp           -- `ts[low2high][0]` IndexError
  | u0 :: urest =>
    let ups := (u0 :: urest).map (fun t => t - u0)
    let onsets := (stride2 audio_times).map (fun t => t - audio_times.headI)
    match attribute_times (onsets.map some) ups (1 / 10) true true with
    | none => .error .attrCrashUp
    | some assigned =>
      if ¬ assigned.all (fun k => -1 < k) then .error .unattrUp
      else .ok (assigned.map (fun k => (stride2 audio_times).getD k.toNat 0))

/-- Offset attribution (camera.py lines 497-502): the falling transitions
against the odd-indexed TTL times, zero-referenced to `audio['times'][1]`. -/
def groomOffsets (gpio : List Bool) (audio_times : List ℚ) (ts : List ℚ) :
    Except GroomErr (List ℚ) :=
  match maskSel ts (highToLow gpio), audio_times.getD 1 0, audio_times.drop 1 with
  | [], _, _ => .error .attrCrashDown   -- `ts[high2low][0]` IndexError
  | d0 :: drest, t1, tsTail =>
    if audio_times.length < 2 then .error .attrCrashDown
      -- `audio['times'][1]` IndexError
    else
      let downs := (d0 :: drest).map (fun t => t - d0)
      let offsets := (stride2 tsTail).map (fun t => t - t1)
      match attribute_times (offsets.map some) downs (1 / 10) true true with
      | none => .error .attrCrashDown
      | some assigned2 =>
        if ¬ assigned2.all (fun k => -1 < k) then .error .unattrDown
        else .ok (assigned2.map (fun k => (stride2 tsTail).getD k.toNat 0))

/-- The attribution branch of `groom_pin_state` (camera.py lines 487-507,
taken when there are more audio TTLs than GPIO state changes): the matched
onset and offset times interleaved back into onset/offset order,
`audio_[::2] = onsets_; audio_[1::2] = offsets_`.  The strided writes into
`np.empty(flips.sum())` are broadcast errors unless the two halves have
exactly the right lengths. -/
def groomMatch (gpio : List Bool) (audio_times : List ℚ) (ts : List ℚ) :
    Except GroomErr (List ℚ) :=
  match groomOnsets gpio audio_times ts, groomOffsets gpio audio_times ts with
  | .error e, _ => .error e
  | .ok _, .error e => .error e
  | .ok onsets_, .ok offsets_ =>
    if onsets_.length = ((flipsOf gpio).count true + 1) / 2 ∧
        offsets_.length = (flipsOf gpio).count true / 2 then
      .ok (interleave onsets_ offsets_)
    else .error .interleaveErr

/-- Body of `groom_pin_state` after the length reconciliation of `gpio`
against `ts` (lines 459-512 of camera.py). -/
def groomChecked (gpio : List Bool) (audio_times : List ℚ) (audio_polarities : List ℤ)
    (ts : List ℚ) : Except GroomErr (List ℚ × List ℚ) :=
  if audio_times.length ≠ audio_polarities.length then .error .audioDim
  else if ¬ (npdiffZ audio_polarities).all (fun d => d.natAbs = 2) then .error .polarity
  else if audio_polarities.getD 0 0 ≠ 1 then .error .firstHigh
  else if ¬ allDiffPos audio_times = true then .error .audioOrder
  else if gpio.headI = true then .error .gpioStart
  else if ¬ gpio.any (fun b => b) then .error .noFlips
  else if (flipsOf gpio).count true ≠ audio_times.length then
    -- more audio TTLs than GPIO state changes: assign timestamps
    match groomMatch gpio audio_times ts with
    | .error e => .error e
    | .ok groomed => .ok (groomed, maskSel ts (flipsOf gpio))
  else
    .ok (audio_times, maskSel ts (flipsOf gpio))

/-- `groom_pin_state` (camera.py lines 444-531): length reconciliation then
`groomChecked`.  The returned pair is the groomed clock-domain TTL sequence
and the camera-side transition times `ts[flips]` fed to the external drift
fitter. -/
def groom_pin_state (gpio : List Bool) (audio_times : List ℚ) (audio_polarities : List ℤ)
    (ts : List ℚ) : Except GroomErr (List ℚ × List ℚ) :=
  if ts.length ≠ gpio.length then
    if ts.length < gpio.length then
      groomChecked (gpio.take ts.length) audio_times audio_polarities ts
    else .error .sizeMismatch
  else groomChecked gpio audio_times audio_polarities ts

/-! ## FrameTimestampAligner: `align_with_audio` / `align_with_audio_safe` -/

inductive AlignErr where
  | sizeMismatch  -- `assert count.size == pin_state.size`
  | countOrder    -- `assert all(np.diff(count) > 0)`
  | tsOrder       -- `assert all(np.diff(timestamps) > 0)`
  | ttlCount      -- `assert sum(low2high) <= audio.size`
  | indexErr      -- IndexError/ValueError on empty pin_state/count/audio
  | negStart      -- `assert start >= 0`
  | badFrate      -- `round(1/np.nanmedian(np.diff(ts)))` on an empty diff: NaN
  | sizeCheck     -- `assert ts.size >= count.size` / `assert ts.size == count[-1]+1`
  | finalCheck    -- `assert np.searchsorted(ts, audio[0]) == first_uptick`
  | fragEmpty     -- `count_frag[-1]` IndexError (align_with_audio_safe)
  | fragIndex     -- `timestamps_split[i]` IndexError (align_with_audio_safe)
  | fragMismatch  -- `assert (timestamps_split[i].size - count_frag.size) == len(missing)`
  deriving Repr, DecidableEq

/-- `start = first_ttl - first_uptick - (count[first_uptick] - first_uptick)`
(camera.py line 282 / 362). -/
def awaStart (timestamps : List ℚ) (a0 : ℚ) (pin_state : List Bool) (count : List ℕ) : ℤ :=
  (searchsorted timestamps a0 : ℤ) - firstUptick pin_state
    - ((count.getD (firstUptick pin_state) 0 : ℤ) - firstUptick pin_state)

/-- The start offset, as a natural number (used to phrase windows). -/
def awaStartNat (timestamps : List ℚ) (a0 : ℚ) (pin_state : List Bool)
    (count : List ℕ) : ℕ :=
  (awaStart timestamps a0 pin_state count).toNat

/-- `align_with_audio` (camera.py lines 228-323).  Output entries are `none`
where the code produces NaN (padding with `extrapolate_missing=False`) or
infinity (extrapolation with an inferred frame rate that rounds to zero). -/
def align_with_audio (timestamps audio : List ℚ) (pin_state : List Bool)
    (count : List ℕ) (extrapolate_missing : Bool) : Except AlignErr (List (Option ℚ)) :=
  if count.length ≠ pin_state.length then .error .sizeMismatch
  else if ¬ allDiffPosN count = true then .error .countOrder
  else if ¬ allDiffPos timestamps = true then .error .tsOrder
  else if ¬ (numRising pin_state ≤ audio.length) then .error .ttlCount
  else
    match audio, count with
    | [], _ => .error .indexErr       -- `audio[0]` IndexError
    | _, [] => .error .indexErr       -- argmax/`count[...]` on empty arrays
    | a0 :: _, c0 :: crest =>
      let start := awaStart timestamps a0 pin_state (c0 :: crest)
      if start < 0 then .error .negStart
      else
        let lastCount := (c0 :: crest).getLastD 0
        let tsSlice := (timestamps.drop start.toNat).take (lastCount + 1)
        let padRes : Except AlignErr (List (Option ℚ)) :=
          if tsSlice.length < (c0 :: crest).length then
            match npdiff tsSlice, tsSlice.getLast? with
            | [], _ => .error .badFrate
            | _, none => .error .badFrate
            | d :: ds, some lastTs =>
              let n_missing := (c0 :: crest).length - tsSlice.length
              let frate := pyround (1 / median (d :: ds))
              let toApp := if extrapolate_missing then
                  (List.range n_missing).map (fun k : ℕ =>
                    if frate = 0 then none
                    else some (((k : ℚ) + 1) / (frate : ℚ) + lastTs))
                else List.replicate n_missing none
              .ok (tsSlice.map some ++ toApp)
          else .ok (tsSlice.map some)
        match padRes with
        | .error e => .error e
        | .ok ts2 =>
          if ts2.length < (c0 :: crest).length then .error .sizeCheck
          else if ts2.length ≠ lastCount + 1 then .error .sizeCheck
          else
            let final := (c0 :: crest).map (fun c => ts2.getD c none)
            if searchsortedO final a0 ≠ firstUptick pin_state then .error .finalCheck
            else .ok final

/-- `np.split(ts, idxs)`: slices between consecutive division points (Python
slice semantics: empty when the stop is at or before the start). -/
def npsplitGo (ts : List ℚ) : ℕ → List ℕ → List (List ℚ)
  | prev, [] => [ts.drop prev]
  | prev, i :: rest => ((ts.drop prev).take (i - prev)) :: npsplitGo ts i rest

def npsplit (ts : List ℚ) (idxs : List ℕ) : List (List ℚ) :=
  npsplitGo ts 0 idxs

/-- The per-fragment check loop of `align_with_audio_safe` (lines 372-376).
The filtered fragment `timestamps_split[i][count_frag]` is computed by the
source but assigned back into the local list only, which the function never
reads again, so only the assert has an observable effect. -/
def fragChecks (splits : List (List ℚ)) (count : List ℕ) :
    List (ℕ × ℕ) → ℕ → Except AlignErr Unit
  | [], _ => .ok ()
  | (a, b) :: rest, i =>
    let base := count.getD a 0
    let frag := ((count.drop a).take (b - a)).map (fun c => c - base)
    match frag.getLast?, splits.get? i with
    | none, _ => .error .fragEmpty
    | _, none => .error .fragIndex
    | some lastf, some spl =>
      let missing := (List.range lastf).filter (fun x => decide (x ∉ frag))
      if (spl.length : ℤ) - (frag.length : ℤ) = (missing.length : ℤ) then
        fragChecks splits count rest (i + 1)
      else .error .fragMismatch

/-- `align_with_audio_safe` (camera.py lines 326-378).  Note the returned
value is `ts = timestamps[start:]`, the slice itself: the per-fragment
filtering is performed on a local list that is then discarded. -/
def align_with_audio_safe (timestamps audio : List ℚ) (pin_state : List Bool)
    (count : List ℕ) : Except AlignErr (List ℚ) :=
  if count.length ≠ pin_state.length then .error .sizeMismatch
  else if ¬ allDiffPosN count = true then .error .countOrder
  else if ¬ allDiffPos timestamps = true then .error .tsOrder
  else if ¬ (numRising pin_state ≤ audio.length) then .error .ttlCount
  else
    match audio, count with
    | [], _ => .error .indexErr
    | _, [] => .error .indexErr
    | a0 :: _, _ :: _ =>
      let start := awaStart timestamps a0 pin_state count
      if start < 0 then .error .negStart
      else
        let ts := timestamps.drop start.toNat
        let ttls := audio.map (fun a => searchsorted ts a)
        let splits := npsplit ts ttls
        let upticks := 0 :: trueIndices (lowToHigh pin_state)
        match fragChecks splits count (upticks.zip upticks.tail) 0 with
        | .error e => .error e
        | .ok _ => .ok ts

/-! ## TrialTimeReconstructor: `CameraTimestampsBpod._times_from_bpod`

Lines 148-225.  Trials supply `Port1In` (`pin`) and `Port1Out` (`pout`)
edge times.  The `np.all(pin) is None` guard can never hold (`np.all`
returns a numpy bool), so no trial is ever discarded; the per-trial
out-of-sync tests only emit a warning and are omitted.  The video probe
(cv2) is external: its frame count enters as the `nframes` parameter. -/

inductive BpodErr where
  | emptyTrialData -- `pout[0]` / `pin[0]` IndexError inside the trial loop
  | emptyTrial     -- `c[0]` / `c[-1]` IndexError building t_first/t_last
  | noFrate        -- every trial too short: the NaN frame rate propagates
                   -- to `np.int32(...)` garbage and `np.zeros` fails
  | negSize        -- `np.zeros` of a negative total length
  | writeErr       -- broadcast failure writing a slice of the prealloc array
                   -- (also numpy's negative-index wraparound, modelled fatal)
  | notIncreasing  -- `assert all(np.diff(frame_times) > 0)`
  deriving Repr, DecidableEq

/-- One iteration of the trial loop (lines 156-181): drop a leading falling
edge that precedes the first rising edge, then trim `pin` to `pout`'s size. -/
def processTrial (pin pout : List ℚ) : Except BpodErr (List ℚ) :=
  match pin, pout with
  | [], _ => .error .emptyTrialData
  | _, [] => .error .emptyTrialData
  | p0 :: _, q0 :: qrest =>
    let pout2 := if q0 < p0 then qrest else q0 :: qrest
    .ok (pin.take pout2.length)

/-- `intertrial_duration = t_first_frame[1:] - t_last_frame[:-1]`. -/
def camDurs (cams : List (List ℚ)) : List ℚ :=
  List.zipWith (fun a b => a - b) (cams.map (fun c => c.headI)).tail
    (cams.map (fun c => c.getLastD 0))

/-- `frate = 1 / np.nanmedian([np.median(np.diff(c)) for c in cam_times])`:
trials with fewer than two frames contribute NaN, which nanmedian drops. -/
def camFrate (cams : List (List ℚ)) : ℚ :=
  1 / median (cams.filterMap (fun c =>
    if 2 ≤ c.length then some (median (npdiff c)) else none))

/-- `intertrial_missed_frames = np.int32(np.round(dur * frate)) - 1`. -/
def camNmiss (cams : List (List ℚ)) : List ℤ :=
  (camDurs cams).map (fun d => pyround (d * camFrate cams) - 1)

/-- The fill loop (lines 195-207) over the preallocated `np.zeros` array of
size `N`.  With non-negative gap counts the writes are sequential appends; a
negative count moves the write pointer backwards (subsequent writes overwrite
the tail, modelled by `take`); writes that would run past `N` are numpy
broadcast errors. -/
def fillLoop (N : ℕ) : List (List ℚ) → List ℚ → List ℤ → List ℚ → Except BpodErr (List ℚ)
  | [], _, _, acc => .ok (acc ++ List.replicate (N - acc.length) 0)
  | [c], _, _, acc =>
    if N < acc.length + c.length then .error .writeErr
    else .ok ((acc ++ c) ++ List.replicate (N - (acc.length + c.length)) 0)
  | c :: c2 :: rest, dur :: durs', nm :: nms', acc =>
    if N < acc.length + c.length then .error .writeErr
    else
      let acc2 := acc ++ c
      if nm < 0 then
        if (acc2.length : ℤ) + nm < 0 then .error .writeErr
        else fillLoop N (c2 :: rest) durs' nms' (acc2.take ((acc2.length : ℤ) + nm).toNat)
      else
        if N < acc2.length + nm.toNat then .error .writeErr
        else fillLoop N (c2 :: rest) durs' nms'
          (acc2 ++ (List.range nm.toNat).map
            (fun k : ℕ => c.getLastD 0 + dur / ((nm : ℚ) + 1) * ((k : ℚ) + 1)))
  | _ :: _ :: _, _, _, _ => .error .writeErr

/-- `_times_from_bpod` (lines 148-225), with the cv2 frame count supplied as
`nframes`. -/
def times_from_bpod (trials : List (List ℚ × List ℚ)) (nframes : ℕ) :
    Except BpodErr (List ℚ) :=
  match trials.mapM (fun t => processTrial t.1 t.2) with
  | .error e => .error e
  | .ok cam_times =>
    if cam_times.any (fun c => c.isEmpty) then .error .emptyTrial
    else if (cam_times.filterMap (fun c =>
        if 2 ≤ c.length then some (median (npdiff c)) else none)).isEmpty then
      .error .noFrate
    else
      let n_frames := (cam_times.map List.length).sum
      let nmisses := camNmiss cam_times
      let total : ℤ := (n_frames : ℤ) + nmisses.sum
      if total < 0 then .error .negSize
      else
        match fillLoop total.toNat cam_times (camDurs cam_times) nmisses [] with
        | .error e => .error e
        | .ok ft =>
          let ft2 := if ft.length < nframes then
              ft ++ (List.range (nframes - ft.length)).map
                (fun k : ℕ => ((k : ℚ) + 1) / camFrate cam_times + ft.getLastD 0)
            else ft
          if ¬ allDiffPos ft2 = true then .error .notIncreasing
          else .ok ft2

/-- The trial-concatenation with interpolated gaps that the fill loop
produces when every gap count is non-negative: trial `k`'s recovered times,
then `nmiss_k` evenly spaced synthetic times across the gap, then trial
`k+1`, and so on. -/
def withGaps : List (List ℚ) → List ℚ → List ℤ → List ℚ
  | [], _, _ => []
  | [c], _, _ => c
  | c :: c2 :: rest, dur :: durs', nm :: nms' =>
    c ++ (List.range nm.toNat).map
      (fun k : ℕ => c.getLastD 0 + dur / ((nm : ℚ) + 1) * ((k : ℚ) + 1))
      ++ withGaps (c2 :: rest) durs' nms'
  | c :: _ :: _, _, _ => c

/-! ## General list lemmas -/

theorem takeWhile_length_le {α : Type} (p : α → Bool) :
    ∀ l : List α, (l.takeWhile p).length ≤ l.length := by
  intro l
  induction l with
  | nil => simp
  | cons a t ih =>
    by_cases h : p a
    · simp only [List.takeWhile_cons, h, if_true, List.length_cons]
      omega
    · simp only [List.takeWhile_cons, h]
      simp

/-- A `takeWhile` prefix has length exactly `k` when the predicate holds at
all indices below `k` and fails at `k`. -/
theorem takeWhile_length_eq {α : Type} (p : α → Bool) :
    ∀ (l : List α) (k : ℕ), k ≤ l.length →
      (∀ i (hi : i < l.length), i < k → p l[i] = true) →
      (∀ hkl : k < l.length, p l[k] = false) →
      (l.takeWhile p).length = k := by
  intro l
  induction l with
  | nil =>
    intro k hk _ _
    simp at hk
    simp [hk]
  | cons a t ih =>
    intro k hk h1 h2
    cases k with
    | zero =>
      have ha := h2 (by simp)
      simp only [List.getElem_cons_zero] at ha
      simp [List.takeWhile_cons, ha]
    | succ k' =>
      have ha : p a = true := h1 0 (by simp) (Nat.succ_pos _)
      simp only [List.takeWhile_cons, ha, if_true, List.length_cons, Nat.succ_eq_add_one,
        Nat.add_right_cancel_iff]
      refine ih k' (by simpa using hk) ?_ ?_
      · intro i hi hik
        have := h1 (i + 1) (by simpa using hi) (by omega)
        simpa using this
      · intro hkl
        have := h2 (by simpa using hkl)
        simpa using this

/-- Inside the `takeWhile` prefix the predicate holds. -/
theorem takeWhile_getElem_true {α : Type} (p : α → Bool) :
    ∀ (l : List α) (i : ℕ) (h : i < (l.takeWhile p).length) (hi : i < l.length),
      p l[i] = true := by
  intro l
  induction l with
  | nil => intro i h hi; simp at hi
  | cons a t ih =>
    intro i h hi
    by_cases ha : p a
    · cases i with
      | zero => simpa using ha
      | succ i' =>
        simp only [List.takeWhile_cons, ha, if_true, List.length_cons] at h
        have := ih i' (by omega) (by simpa using hi)
        simpa using this
    · simp [List.takeWhile_cons, ha] at h

/-- Right after the `takeWhile` prefix the predicate fails. -/
theorem takeWhile_getElem_false {α : Type} (p : α → Bool) :
    ∀ (l : List α) (h : (l.takeWhile p).length < l.length),
      p l[(l.takeWhile p).length] = false := by
  intro l
  induction l with
  | nil => intro h; simp at h
  | cons a t ih =>
    intro h
    by_cases ha : p a
    · simp only [List.takeWhile_cons, ha, if_true, List.length_cons] at h ⊢
      have := ih (by omega)
      simpa using this
    · simpa [List.takeWhile_cons, ha] using ha

/-- Strictly sorted lists are strictly monotone in their indices. -/
theorem chain'_lt_getElem {α : Type} [LinearOrder α] {l : List α}
    (h : List.Chain' (· < ·) l) {i j : ℕ} (hij : i < j) (hi : i < l.length)
    (hj : j < l.length) : l[i] < l[j] := by
  have hp : l.Pairwise (· < ·) := List.chain'_iff_pairwise.mp h
  exact List.pairwise_iff_getElem.mp hp i j hi hj hij

/-- Weak version of `chain'_lt_getElem`. -/
theorem chain'_le_getElem {α : Type} [LinearOrder α] {l : List α}
    (h : List.Chain' (· < ·) l) {i j : ℕ} (hij : i ≤ j) (hi : i < l.length)
    (hj : j < l.length) : l[i] ≤ l[j] := by
  rcases Nat.lt_or_ge i j with hlt | hge
  · exact le_of_lt (chain'_lt_getElem h hlt hi hj)
  · have heq : i = j := by omega
    subst heq
    rfl

theorem searchsorted_le_length (xs : List ℚ) (v : ℚ) :
    searchsorted xs v ≤ xs.length :=
  takeWhile_length_le _ xs

/-- Characterization of `searchsorted` on a sorted array: index `k` holds an
element `< v` exactly when `k` lies before the insertion point. -/
theorem lt_searchsorted_iff {xs : List ℚ} (hx : List.Chain' (· < ·) xs) (v : ℚ)
    {k : ℕ} (hk : k < xs.length) :
    xs[k] < v ↔ k < searchsorted xs v := by
  constructor
  · intro hv
    by_contra hts
    push_neg at hts
    have ht : searchsorted xs v < xs.length := by omega
    have hfail := takeWhile_getElem_false (fun t => decide (t < v)) xs ht
    simp only [decide_eq_false_iff_not, not_lt] at hfail
    have : xs[searchsorted xs v] ≤ xs[k] := chain'_le_getElem hx hts ht hk
    exact absurd hv (not_lt.mpr (le_trans hfail this))
  · intro hts
    have := takeWhile_getElem_true (fun t => decide (t < v)) xs k hts hk
    simpa using this

/-- In a strictly increasing list of naturals, each entry dominates its index. -/
theorem chain'_nat_le_getElem {l : List ℕ} (h : List.Chain' (· < ·) l) :
    ∀ (i : ℕ) (hi : i < l.length), i ≤ l[i] := by
  intro i
  induction i with
  | zero => intro hi; exact Nat.zero_le _
  | succ i' ih =>
    intro hi
    have hi' : i' < l.length := by omega
    have h1 : i' ≤ l[i'] := ih hi'
    have h2 : l[i'] < l[i' + 1] := chain'_lt_getElem h (Nat.lt_succ_self _) hi' hi
    omega

/-- Every member of a strictly increasing list of naturals is at most its
last entry. -/
theorem chain'_nat_mem_le_getLastD {l : List ℕ} (h : List.Chain' (· < ·) l)
    {x : ℕ} (hx : x ∈ l) : x ≤ l.getLastD 0 := by
  rcases List.mem_iff_getElem.mp hx with ⟨n, hn, rfl⟩
  have hne : l ≠ [] := by
    intro hemp
    subst hemp
    simp at hn
  have hlt : l.length - 1 < l.length := by
    have := List.length_pos.mpr hne
    omega
  have hlast : l.getLastD 0 = l[l.length - 1] := by
    rw [List.getLastD_eq_getLast?, List.getLast?_eq_getElem?,
      List.getElem?_eq_getElem hlt]
    rfl
  rw [hlast]
  exact chain'_le_getElem h (by omega) hn hlt

/-- A strictly increasing list of naturals has no more entries than its last
entry plus one. -/
theorem chain'_nat_length_le {l : List ℕ} (h : List.Chain' (· < ·) l)
    (hne : l ≠ []) : l.length ≤ l.getLastD 0 + 1 := by
  have hpos := List.length_pos.mpr hne
  have hlt : l.length - 1 < l.length := by omega
  have hlast : l.getLastD 0 = l[l.length - 1] := by
    rw [List.getLastD_eq_getLast?, List.getLast?_eq_getElem?,
      List.getElem?_eq_getElem hlt]
    rfl
  have := chain'_nat_le_getElem h (l.length - 1) hlt
  omega

/-! ## Lemmas on the event-matching loop -/

/-- Unpacking `matchCond`: every `dx` entry is finite and the minimum is a
member below tolerance. -/
theorem matchCond_spec {dx : List (Option ℚ)} {tol : ℚ} (h : matchCond dx tol = true) :
    (∀ (i : ℕ) (hi : i < dx.length), (dx[i]).isSome = true) ∧
      ∃ m, (dx.filterMap id).min? = some m ∧ m < tol ∧ some m ∈ dx := by
  unfold matchCond at h
  rw [Bool.and_eq_true] at h
  obtain ⟨hall, hmin⟩ := h
  refine ⟨?_, ?_⟩
  · intro i hi
    exact List.all_eq_true.mp hall dx[i] (List.getElem_mem hi)
  · cases hm : (dx.filterMap id).min? with
    | none => rw [hm] at hmin; simp at hmin
    | some m =>
      rw [hm] at hmin
      refine ⟨m, rfl, by simpa using hmin, ?_⟩
      have hmem : m ∈ dx.filterMap id :=
        List.min?_mem (fun a b => by rw [inf_eq_min]; exact min_choice a b) hm
      rcases List.mem_filterMap.mp hmem with ⟨o, ho, hid⟩
      cases o with
      | none => simp at hid
      | some v =>
        simp only [id_eq, Option.some.injEq] at hid
        subst hid
        exact ho

/-- The selected index is in range and within tolerance (both policies). -/
theorem pickIdx_spec {dx : List (Option ℚ)} {tol : ℚ} (tf : Bool)
    (h : matchCond dx tol = true) :
    pickIdx dx tol tf < dx.length ∧
      ∃ d, dx[pickIdx dx tol tf]? = some (some d) ∧ d < tol := by
  obtain ⟨hall, m, hm, hmtol, hmem⟩ := matchCond_spec h
  cases tf with
  | true =>
    simp only [pickIdx, if_true]
    have hex : ∃ x ∈ dx, (fun o => match o with
        | some d => decide (d < tol)
        | none => false) x = true := ⟨some m, hmem, by simpa using hmtol⟩
    have hlt := List.findIdx_lt_length_of_exists hex
    refine ⟨hlt, ?_⟩
    have hp := @List.findIdx_getElem _ _ dx hlt
    cases ho : dx[List.findIdx (fun o => match o with
        | some d => decide (d < tol)
        | none => false) dx] with
    | none => rw [ho] at hp; simp at hp
    | some d =>
      rw [ho] at hp
      simp only [decide_eq_true_eq] at hp
      exact ⟨d, by rw [List.getElem?_eq_getElem hlt, ho], hp⟩
  | false =>
    simp only [pickIdx, Bool.false_eq_true, if_false]
    have hex : ∃ x ∈ dx, (fun o => decide (o = (dx.filterMap id).min?)) x = true :=
      ⟨some m, hmem, by rw [hm]; simp⟩
    have hlt := List.findIdx_lt_length_of_exists hex
    refine ⟨hlt, ?_⟩
    have hp := @List.findIdx_getElem _ _ dx hlt
    simp only [decide_eq_true_eq] at hp
    have hp2 : dx[List.findIdx (fun o => decide (o = (List.filterMap id dx).min?)) dx]
        = some m := hp.trans hm
    exact ⟨m, by rw [List.getElem?_eq_getElem hlt, hp2], hmtol⟩

/-- When every event is at least `tol` from the fill value, the selected
candidate is unmasked and finite, and lies within tolerance of the event. -/
theorem pickIdx_unmasked {arr : List (Option ℚ)} {mask : List Bool} {x tol : ℚ} (tf : Bool)
    (hm : mask.length = arr.length) (hx : tol ≤ |fillValue - x|)
    (hc : matchCond (dxAt arr mask x) tol = true) :
    pickIdx (dxAt arr mask x) tol tf < arr.length ∧
      mask.getD (pickIdx (dxAt arr mask x) tol tf) true = false ∧
      ∃ v, arr.getD (pickIdx (dxAt arr mask x) tol tf) none = some v ∧ |v - x| < tol := by
  obtain ⟨hlt, d, hd, hdtol⟩ := pickIdx_spec tf hc
  have hdxlen : (dxAt arr mask x).length = arr.length := by
    simp [dxAt, List.length_zipWith, hm]
  have hia : pickIdx (dxAt arr mask x) tol tf < arr.length := by omega
  have him : pickIdx (dxAt arr mask x) tol tf < mask.length := by omega
  rw [List.getElem?_eq_getElem hlt] at hd
  have hd' : (dxAt arr mask x)[pickIdx (dxAt arr mask x) tol tf] = some d := by
    simpa using hd
  rw [show (dxAt arr mask x)[pickIdx (dxAt arr mask x) tol tf] =
      (if mask[pickIdx (dxAt arr mask x) tol tf]
       then some |fillValue - x|
       else Option.map (fun r => |r - x|) arr[pickIdx (dxAt arr mask x) tol tf]) from by
    simp [dxAt, List.getElem_zipWith]] at hd'
  by_cases hmask : mask[pickIdx (dxAt arr mask x) tol tf] = true
  · rw [if_pos hmask] at hd'
    simp only [Option.some.injEq] at hd'
    subst hd'
    exact absurd hdtol (not_lt.mpr hx)
  · rw [if_neg hmask] at hd'
    refine ⟨hia, ?_, ?_⟩
    · rw [List.getD_eq_getElem _ _ him]
      simpa using hmask
    · cases ha : arr[pickIdx (dxAt arr mask x) tol tf] with
      | none => rw [ha] at hd'; simp at hd'
      | some v =>
        rw [ha] at hd'
        simp only [Option.map_some', Option.some.injEq] at hd'
        refine ⟨v, ?_, by rw [hd']; exact hdtol⟩
        rw [List.getD_eq_getElem _ _ hia, ha]

theorem attrLoop_length (arr : List (Option ℚ)) (tol : ℚ) (inj tf : Bool) :
    ∀ (events : List ℚ) (mask : List Bool),
      (attrLoop arr tol inj tf events mask).length = events.length := by
  intro events
  induction events with
  | nil => intro mask; simp [attrLoop]
  | cons x xs ih =>
    intro mask
    by_cases h : matchCond (dxAt arr mask x) tol = true
    · simp [attrLoop, h, ih]
    · simp [attrLoop, h, ih]

theorem attrLoop_cons_pos (arr : List (Option ℚ)) (tol : ℚ) (inj tf : Bool)
    (x : ℚ) (xs : List ℚ) (mask : List Bool)
    (h : matchCond (dxAt arr mask x) tol = true) :
    attrLoop arr tol inj tf (x :: xs) mask =
      (pickIdx (dxAt arr mask x) tol tf : ℤ) ::
        attrLoop arr tol inj tf xs (mask.set (pickIdx (dxAt arr mask x) tol tf) inj) := by
  simp [attrLoop, h]

theorem attrLoop_cons_neg (arr : List (Option ℚ)) (tol : ℚ) (inj tf : Bool)
    (x : ℚ) (xs : List ℚ) (mask : List Bool)
    (h : ¬ matchCond (dxAt arr mask x) tol = true) :
    attrLoop arr tol inj tf (x :: xs) mask = (-1) :: attrLoop arr tol inj tf xs mask := by
  simp [attrLoop, h]

/-- Matched indices always point at finite candidates (loop version). -/
theorem attrLoop_finite_aux (arr : List (Option ℚ)) (tol : ℚ) (inj tf : Bool) :
    ∀ (events : List ℚ) (mask : List Bool), mask.length = arr.length →
      (∀ x ∈ events, tol ≤ |fillValue - x|) →
      ∀ k : ℤ, k ∈ attrLoop arr tol inj tf events mask → 0 ≤ k →
        (arr.getD k.toNat none).isSome = true := by
  intro events
  induction events with
  | nil => intro mask _ _ k hk; simp [attrLoop] at hk
  | cons x xs ih =>
    intro mask hm hFill k hk hk0
    by_cases h : matchCond (dxAt arr mask x) tol = true
    · rw [attrLoop_cons_pos arr tol inj tf x xs mask h, List.mem_cons] at hk
      rcases hk with hke | hkm
      · obtain ⟨hia, hmask, v, hv, _⟩ :=
          pickIdx_unmasked tf hm (hFill x (List.mem_cons_self x xs)) h
        rw [hke]
        simp only [Int.toNat_natCast]
        rw [hv]
        rfl
      · exact ih (mask.set (pickIdx (dxAt arr mask x) tol tf) inj)
          (by rw [List.length_set]; exact hm)
          (fun y hy => hFill y (List.mem_cons_of_mem x hy)) k hkm hk0
    · rw [attrLoop_cons_neg arr tol inj tf x xs mask h, List.mem_cons] at hk
      rcases hk with hke | hkm
      · rw [hke] at hk0; simp at hk0
      · exact ih mask hm (fun y hy => hFill y (List.mem_cons_of_mem x hy)) k hkm hk0

/-- A masked candidate index is never produced by the injective loop. -/
theorem attrLoop_not_mem_of_masked (arr : List (Option ℚ)) (tol : ℚ) (tf : Bool) :
    ∀ (events : List ℚ) (mask : List Bool), mask.length = arr.length →
      (∀ x ∈ events, tol ≤ |fillValue - x|) →
      ∀ k : ℕ, mask.getD k true = true → k < mask.length →
        (k : ℤ) ∉ attrLoop arr tol true tf events mask := by
  intro events
  induction events with
  | nil => intro mask _ _ k _ _; simp [attrLoop]
  | cons x xs ih =>
    intro mask hm hFill k hmask hklen
    by_cases h : matchCond (dxAt arr mask x) tol = true
    · obtain ⟨hia, hunm, _⟩ := pickIdx_unmasked tf hm (hFill x (List.mem_cons_self x xs)) h
      rw [attrLoop_cons_pos arr tol true tf x xs mask h, List.mem_cons]
      push_neg
      constructor
      · intro heq
        have heq' : k = pickIdx (dxAt arr mask x) tol tf := by exact_mod_cast heq
        rw [heq'] at hmask
        rw [hmask] at hunm
        simp at hunm
      · refine ih (mask.set (pickIdx (dxAt arr mask x) tol tf) true)
          (by rw [List.length_set]; exact hm)
          (fun y hy => hFill y (List.mem_cons_of_mem x hy)) k ?_
          (by rw [List.length_set]; exact hklen)
        rw [List.getD_eq_getElem?_getD, List.getElem?_set]
        by_cases hik : pickIdx (dxAt arr mask x) tol tf = k
        · rw [if_pos hik, if_pos (by omega : pickIdx (dxAt arr mask x) tol tf < mask.length)]
          rfl
        · rw [if_neg hik]
          rw [List.getD_eq_getElem?_getD] at hmask
          exact hmask
    · rw [attrLoop_cons_neg arr tol true tf x xs mask h, List.mem_cons]
      push_neg
      constructor
      · intro heq
        omega
      · exact ih mask hm (fun y hy => hFill y (List.mem_cons_of_mem x hy)) k hmask hklen

/-- Injectivity of the loop: distinct positions get distinct matched indices. -/
theorem attrLoop_injective_aux (arr : List (Option ℚ)) (tol : ℚ) (tf : Bool) :
    ∀ (events : List ℚ) (mask : List Bool), mask.length = arr.length →
      (∀ x ∈ events, tol ≤ |fillValue - x|) →
      (attrLoop arr tol true tf events mask).Pairwise
        (fun a b => 0 ≤ a → 0 ≤ b → a ≠ b) := by
  intro events
  induction events with
  | nil => intro mask _ _; simp [attrLoop]
  | cons x xs ih =>
    intro mask hm hFill
    by_cases h : matchCond (dxAt arr mask x) tol = true
    · obtain ⟨hia, hunm, _⟩ := pickIdx_unmasked tf hm (hFill x (List.mem_cons_self x xs)) h
      rw [attrLoop_cons_pos arr tol true tf x xs mask h, List.pairwise_cons]
      constructor
      · intro b hb _ _ heq
        rw [← heq] at hb
        have hnot := attrLoop_not_mem_of_masked arr tol tf xs
          (mask.set (pickIdx (dxAt arr mask x) tol tf) true)
          (by rw [List.length_set]; exact hm)
          (fun y hy => hFill y (List.mem_cons_of_mem x hy))
          (pickIdx (dxAt arr mask x) tol tf) ?_ ?_
        · exact hnot hb
        · rw [List.getD_eq_getElem?_getD, List.getElem?_set]
          rw [if_pos rfl, if_pos (by omega : pickIdx (dxAt arr mask x) tol tf < mask.length)]
          rfl
        · rw [List.length_set]
          omega
      · exact ih (mask.set (pickIdx (dxAt arr mask x) tol tf) true)
          (by rw [List.length_set]; exact hm)
          (fun y hy => hFill y (List.mem_cons_of_mem x hy))
    · rw [attrLoop_cons_neg arr tol true tf x xs mask h, List.pairwise_cons]
      refine ⟨fun b _ hb0 _ => by omega, ?_⟩
      exact ih mask hm (fun y hy => hFill y (List.mem_cons_of_mem x hy))

/-- Positional specification: a matched index is unmasked with respect to the
mask the run started from, and within tolerance of its own event (finite
candidate array, injective, take='first'). -/
theorem attrLoop_pos_spec (l : List ℚ) (tol : ℚ) :
    ∀ (events : List ℚ) (mask : List Bool), mask.length = l.length →
      (∀ x ∈ events, tol ≤ |fillValue - x|) →
      ∀ (j : ℕ) (idx : ℕ),
        (attrLoop (l.map some) tol true true events mask).getD j (-1) = (idx : ℤ) →
        idx < l.length ∧ mask.getD idx true = false ∧
          |l.getD idx 0 - events.getD j 0| < tol := by
  intro events
  induction events with
  | nil =>
    intro mask _ _ j idx hj
    simp [attrLoop] at hj
  | cons x xs ih =>
    intro mask hm hFill j idx hj
    have hmm : mask.length = (l.map some).length := by rw [List.length_map]; exact hm
    by_cases h : matchCond (dxAt (l.map some) mask x) tol = true
    · rw [attrLoop_cons_pos (l.map some) tol true true x xs mask h] at hj
      cases j with
      | zero =>
        rw [List.getD_cons_zero] at hj
        have hpick : pickIdx (dxAt (l.map some) mask x) tol true = idx := by
          exact_mod_cast hj
        obtain ⟨hia, hmask, v, hv, hvt⟩ :=
          pickIdx_unmasked true hmm (hFill x (List.mem_cons_self x xs)) h
        rw [hpick] at hia hmask hv
        rw [List.length_map] at hia
        refine ⟨hia, hmask, ?_⟩
        rw [List.getD_eq_getElem _ _ (by rw [List.length_map]; exact hia),
          List.getElem_map] at hv
        simp only [Option.some.injEq] at hv
        rw [List.getD_cons_zero, List.getD_eq_getElem _ _ hia, hv]
        exact hvt
      | succ j' =>
        rw [List.getD_cons_succ] at hj
        obtain ⟨hidx, hmask', htol'⟩ :=
          ih (mask.set (pickIdx (dxAt (l.map some) mask x) tol true) true)
            (by rw [List.length_set]; exact hm)
            (fun y hy => hFill y (List.mem_cons_of_mem x hy)) j' idx hj
        refine ⟨hidx, ?_, by rw [List.getD_cons_succ]; exact htol'⟩
        rw [List.getD_eq_getElem?_getD, List.getElem?_set] at hmask'
        by_cases hik : pickIdx (dxAt (l.map some) mask x) tol true = idx
        · rw [if_pos hik] at hmask'
          by_cases hlen : pickIdx (dxAt (l.map some) mask x) tol true < mask.length
          · rw [if_pos hlen] at hmask'
            simp at hmask'
          · rw [if_neg hlen] at hmask'
            simp at hmask'
        · rw [if_neg hik] at hmask'
          rw [List.getD_eq_getElem?_getD]
          exact hmask'
    · rw [attrLoop_cons_neg (l.map some) tol true true x xs mask h] at hj
      cases j with
      | zero =>
        rw [List.getD_cons_zero] at hj
        omega
      | succ j' =>
        rw [List.getD_cons_succ] at hj
        obtain ⟨hidx, hmask', htol'⟩ :=
          ih mask hm (fun y hy => hFill y (List.mem_cons_of_mem x hy)) j' idx hj
        exact ⟨hidx, hmask', by rw [List.getD_cons_succ]; exact htol'⟩

/-- Monotonicity of the matched indices for sorted inputs (loop version). -/
theorem attrLoop_monotone_aux (l : List ℚ) (tol : ℚ) (hl : List.Chain' (· < ·) l) :
    ∀ (events : List ℚ) (mask : List Bool), mask.length = l.length →
      List.Chain' (· < ·) events →
      (∀ x ∈ events, tol ≤ |fillValue - x|) →
      (attrLoop (l.map some) tol true true events mask).Pairwise
        (fun a b => 0 ≤ a → 0 ≤ b → a ≤ b) := by
  intro events
  induction events with
  | nil => intro mask _ _ _; simp [attrLoop]
  | cons x xs ih =>
    intro mask hm he hFill
    have hmm : mask.length = (l.map some).length := by rw [List.length_map]; exact hm
    by_cases h : matchCond (dxAt (l.map some) mask x) tol = true
    · obtain ⟨hia, hunm, v, hv, hvt⟩ :=
        pickIdx_unmasked true hmm (hFill x (List.mem_cons_self x xs)) h
      rw [List.length_map] at hia
      rw [attrLoop_cons_pos (l.map some) tol true true x xs mask h, List.pairwise_cons]
      constructor
      · intro b hb hpos0 hposb
        obtain ⟨n, rfl⟩ := Int.eq_ofNat_of_zero_le hposb
        rcases List.mem_iff_getElem.mp hb with ⟨j, hj, hbj⟩
        have hjx : j < xs.length := by
          rw [attrLoop_length] at hj
          exact hj
        have hjd : (attrLoop (l.map some) tol true true xs
            (mask.set (pickIdx (dxAt (l.map some) mask x) tol true) true)).getD j (-1)
            = (n : ℤ) := by
          rw [List.getD_eq_getElem _ _ hj, hbj]
        obtain ⟨hnl, hnm, hnt⟩ :=
          attrLoop_pos_spec l tol xs
            (mask.set (pickIdx (dxAt (l.map some) mask x) tol true) true)
            (by rw [List.length_set]; exact hm)
            (fun y hy => hFill y (List.mem_cons_of_mem x hy)) j n hjd
        -- unmasked with respect to the original mask, and distinct from the head pick
        have hne : pickIdx (dxAt (l.map some) mask x) tol true ≠ n := by
          intro heq
          rw [List.getD_eq_getElem?_getD, List.getElem?_set, if_pos heq,
            if_pos (by omega : pickIdx (dxAt (l.map some) mask x) tol true < mask.length)]
            at hnm
          simp at hnm
        have hnm0 : mask.getD n true = false := by
          rw [List.getD_eq_getElem?_getD, List.getElem?_set, if_neg hne] at hnm
          rw [List.getD_eq_getElem?_getD]
          exact hnm
        -- now show the head pick is at most n
        by_contra hcon
        push_neg at hcon
        have hnpick : n < pickIdx (dxAt (l.map some) mask x) tol true := by
          exact_mod_cast hcon
        -- the event of position j is at least x
        have hxj : x < xs.getD j 0 := by
          have hp : (x :: xs).Pairwise (· < ·) := List.chain'_iff_pairwise.mp he
          have : xs[j] ∈ xs := List.getElem_mem hjx
          have := List.rel_of_pairwise_cons hp this
          rw [List.getD_eq_getElem _ _ hjx]
          exact this
        -- l[n] is within tolerance of x as well
        have hvx : |l.getD (pickIdx (dxAt (l.map some) mask x) tol true) 0 - x| < tol := by
          rw [List.getD_eq_getElem _ _ hia]
          rw [List.getD_eq_getElem _ _ (by rw [List.length_map]; exact hia),
            List.getElem_map] at hv
          simp only [Option.some.injEq] at hv
          rw [hv]
          exact hvt
        have hln : l.getD n 0 < l.getD (pickIdx (dxAt (l.map some) mask x) tol true) 0 := by
          rw [List.getD_eq_getElem _ _ hnl, List.getD_eq_getElem _ _ hia]
          exact chain'_lt_getElem hl hnpick hnl hia
        have hnx : |l.getD n 0 - x| < tol := by
          rw [abs_lt] at hnt hvx ⊢
          constructor <;> linarith
        -- contradiction with minimality of findIdx for take='first'
        have hdxlen : (dxAt (l.map some) mask x).length = l.length := by
          simp [dxAt, List.length_zipWith, hm]
        have hnmlt : n < mask.length := by omega
        have hndx : n < (dxAt (l.map some) mask x).length := by omega
        have hdxn : (dxAt (l.map some) mask x)[n] =
            some |l[n] - x| := by
          simp only [dxAt, List.getElem_zipWith, List.getElem_map]
          rw [List.getD_eq_getElem?_getD, List.getElem?_eq_getElem hnmlt] at hnm0
          simp only [Option.getD_some] at hnm0
          rw [hnm0]
          simp
        have hpred := @List.not_of_lt_findIdx _ (fun o : Option ℚ => match o with
          | some d => decide (d < tol)
          | none => false) (dxAt (l.map some) mask x) n (by
            have hpf : pickIdx (dxAt (l.map some) mask x) tol true =
                List.findIdx (fun o : Option ℚ => match o with
                  | some d => decide (d < tol)
                  | none => false) (dxAt (l.map some) mask x) := by
              simp [pickIdx]
            omega)
        rw [hdxn] at hpred
        simp only [decide_eq_false_iff_not, not_lt] at hpred
        rw [List.getD_eq_getElem _ _ hnl] at hnx
        exact absurd hnx (not_lt.mpr hpred)
      · exact ih (mask.set (pickIdx (dxAt (l.map some) mask x) tol true) true)
          (by rw [List.length_set]; exact hm) he.tail
          (fun y hy => hFill y (List.mem_cons_of_mem x hy))
    · rw [attrLoop_cons_neg (l.map some) tol true true x xs mask h, List.pairwise_cons]
      refine ⟨fun b _ hb0 _ => by omega, ?_⟩
      exact ih mask hm he.tail (fun y hy => hFill y (List.mem_cons_of_mem x hy))

/-! ## Claims C6, C7, C9: properties of `attribute_times` -/

/-- C6 (amended).  With `injective=True`, `attribute_times` never assigns the
same candidate index to two different events — two non-negative entries of
the returned index array at distinct positions are distinct — provided every
event time lies at distance at least `tol` from the masked-array fill value
`1e20` (numpy's placeholder for consumed and non-finite candidates). -/
theorem attribute_times_injective (arr : List (Option ℚ)) (events : List ℚ)
    (tol : ℚ) (tf : Bool) (res : List ℤ)
    (hFill : ∀ x ∈ events, tol ≤ |fillValue - x|)
    (h : attribute_times arr events tol true tf = some res) :
    res.Pairwise (fun a b => 0 ≤ a → 0 ≤ b → a ≠ b) := by
  unfold attribute_times at h
  by_cases hc : (arr.isEmpty && !events.isEmpty) = true
  · rw [if_pos hc] at h
    exact absurd h (by simp)
  · rw [if_neg hc] at h
    injection h with h'
    rw [← h']
    exact attrLoop_injective_aux arr tol tf events (arr.map fun o => o.isNone)
      (by rw [List.length_map]) hFill

/-- Witness for C6: a concrete injective run, `[some 1, some 2]` against
events `[1, 2]`, yields the distinct indices `[0, 1]`. -/
theorem attribute_times_injective_w :
    List.Pairwise (fun a b : ℤ => 0 ≤ a → 0 ≤ b → a ≠ b) [0, 1] :=
  attribute_times_injective [some 1, some 2] [1, 2] (1 / 10) true [0, 1]
    (by with_unfolding_all decide) (by with_unfolding_all decide)

/-- Counterexample to C6 as stated: the event `1e20` sits exactly on the
masked-array fill value, so the candidate `5` — already consumed by the first
event — is matched a second time and index `0` is assigned twice. -/
theorem attribute_times_injective_cx :
    attribute_times [some 5] [5, 10 ^ 20] (1 / 10) true true = some [0, 0] ∧
      ¬ List.Pairwise (fun a b : ℤ => 0 ≤ a → 0 ≤ b → a ≠ b) [0, 0] := by
  refine ⟨by with_unfolding_all decide, ?_⟩
  intro hp
  exact (List.rel_of_pairwise_cons hp (List.mem_cons_self 0 [])) le_rfl le_rfl rfl

/-- C9 (amended).  `attribute_times` never matches a non-finite placeholder:
every non-negative index of the returned array points at a finite entry of
`arr` — provided every event time lies at distance at least `tol` from the
masked-array fill value `1e20` that numpy substitutes for those
placeholders. -/
theorem attribute_times_finite (arr : List (Option ℚ)) (events : List ℚ)
    (tol : ℚ) (inj tf : Bool) (res : List ℤ) (k : ℤ)
    (hFill : ∀ x ∈ events, tol ≤ |fillValue - x|)
    (h : attribute_times arr events tol inj tf = some res)
    (hk : k ∈ res) (hk0 : 0 ≤ k) :
    (arr.getD k.toNat none).isSome = true := by
  unfold attribute_times at h
  by_cases hc : (arr.isEmpty && !events.isEmpty) = true
  · rw [if_pos hc] at h
    exact absurd h (by simp)
  · rw [if_neg hc] at h
    injection h with h'
    rw [← h'] at hk
    exact attrLoop_finite_aux arr tol inj tf events (arr.map fun o => o.isNone)
      (by rw [List.length_map]) hFill k hk hk0

/-- Witness for C9: candidates `[some 3, none]`, event `[3]`: the assigned
index `0` points at the finite entry `some 3`. -/
theorem attribute_times_finite_w :
    (([some 3, none] : List (Option ℚ)).getD ((0 : ℤ)).toNat none).isSome = true :=
  attribute_times_finite [some 3, none] [3] (1 / 10) true true [0] 0
    (by with_unfolding_all decide) (by with_unfolding_all decide) (by with_unfolding_all decide) (by with_unfolding_all decide)

/-- Counterexample to C9 as stated: a NaN candidate is masked and filled with
`1e20`, so the (finite) event `1e20` matches it — the returned index `0`
points at the non-finite entry. -/
theorem attribute_times_finite_cx :
    attribute_times [none] [10 ^ 20] (1 / 10) true true = some [0] ∧
      (([none] : List (Option ℚ)).getD ((0 : ℤ)).toNat none).isSome = false := by
  exact ⟨by with_unfolding_all decide, by with_unfolding_all decide⟩

/-- C7 (amended).  For strictly increasing `arr` (all finite) and strictly
increasing events, `attribute_times` with `take='first'` (injective) returns
weakly increasing indices over the assigned, non-negative entries taken in
event order — provided every event time lies at distance at least `tol` from
the masked-array fill value `1e20`. -/
theorem attribute_times_monotone (l events : List ℚ) (tol : ℚ) (res : List ℤ)
    (hl : List.Chain' (· < ·) l) (he : List.Chain' (· < ·) events)
    (hFill : ∀ x ∈ events, tol ≤ |fillValue - x|)
    (h : attribute_times (l.map some) events tol true true = some res) :
    res.Pairwise (fun a b => 0 ≤ a → 0 ≤ b → a ≤ b) := by
  unfold attribute_times at h
  by_cases hc : ((l.map some).isEmpty && !events.isEmpty) = true
  · rw [if_pos hc] at h
    exact absurd h (by simp)
  · rw [if_neg hc] at h
    injection h with h'
    rw [← h']
    have hmask : ((l.map some).map fun o => o.isNone) = List.replicate l.length false := by
      apply List.ext_getElem
      · simp
      · intro i h1 h2
        simp [List.getElem_map, List.getElem_replicate]
    rw [hmask]
    exact attrLoop_monotone_aux l tol hl events (List.replicate l.length false)
      (by rw [List.length_replicate]) he hFill

/-- Witness for C7: sorted candidates `[1, 2]` and sorted events `[1, 2]`
give the weakly increasing assignment `[0, 1]`. -/
theorem attribute_times_monotone_w :
    List.Pairwise (fun a b : ℤ => 0 ≤ a → 0 ≤ b → a ≤ b) [0, 1] :=
  attribute_times_monotone [1, 2] [1, 2] (1 / 10) [0, 1]
    (by simp [List.chain'_cons]) (by simp [List.chain'_cons])
    (by with_unfolding_all decide) (by with_unfolding_all decide)

/-- Counterexample to C7 as stated: with sorted candidates `[5, 6]` and
sorted events `[5.05, 5.95, 1e20]`, the third event matches the fill value of
the already-consumed candidate `5`, so the assignment `[0, 1, 0]` is not
weakly increasing. -/
theorem attribute_times_monotone_cx :
    attribute_times [some 5, some 6] [101 / 20, 119 / 20, 10 ^ 20] (1 / 10) true true
        = some [0, 1, 0] ∧
      ¬ List.Pairwise (fun a b : ℤ => 0 ≤ a → 0 ≤ b → a ≤ b) [0, 1, 0] := by
  refine ⟨by with_unfolding_all decide, ?_⟩
  intro hp
  have h1 := List.rel_of_pairwise_cons (List.pairwise_cons.mp hp).2
    (List.mem_cons_self 0 [])
  exact absurd (h1 (by decide) (by decide)) (by decide)

/-! ## Claims C2, C8, C10: properties of `groom_pin_state` -/
theorem interleave_length : ∀ (xs ys : List ℚ), ys.length ≤ xs.length →
    (interleave xs ys).length = xs.length + ys.length := by
  intro xs
  induction xs with
  | nil =>
    intro ys h
    simp at h
    simp [h, interleave]
  | cons x xs' ih =>
    intro ys h
    cases ys with
    | nil => simp [interleave]
    | cons y ys' =>
      simp only [interleave, List.length_cons]
      rw [ih ys' (by simp only [List.length_cons] at h; omega)]
      omega

/-- A successful attribution branch returns one groomed TTL time per
pin-state transition. -/
theorem groomMatch_ok_length (gpio : List Bool) (audio_times : List ℚ) (ts : List ℚ)
    (groomed : List ℚ) (h : groomMatch gpio audio_times ts = .ok groomed) :
    groomed.length = (flipsOf gpio).count true := by
  unfold groomMatch at h
  repeat' split at h
  all_goals try (exact Except.noConfusion h)
  injection h with h'
  rename_i hguard
  obtain ⟨h1, h2⟩ := hguard
  rw [← h', interleave_length _ _ (by omega), h1, h2]
  omega

/-- Success of the post-truncation body forces the groomed TTL sequence to
have exactly one entry per pin-state transition (both branches). -/
theorem groomChecked_ok_length (gpio : List Bool) (audio_times : List ℚ)
    (audio_polarities : List ℤ) (ts : List ℚ) (g ds : List ℚ)
    (h : groomChecked gpio audio_times audio_polarities ts = .ok (g, ds)) :
    g.length = (flipsOf gpio).count true := by
  unfold groomChecked at h
  repeat' split at h
  all_goals try (exact Except.noConfusion h)
  · -- matching branch
    rename_i groomed hmatch
    injection h with h'
    have hlen := groomMatch_ok_length gpio audio_times ts groomed hmatch
    have hg : groomed = g := ((Prod.mk.injEq ..).mp h').1
    rw [← hg]
    exact hlen
  · -- equal-count branch
    rename_i heq
    injection h with h'
    have hg : audio_times = g := ((Prod.mk.injEq ..).mp h').1
    rw [← hg]
    omega

/-- C2.  Whenever `groom_pin_state` succeeds, the groomed clock-domain TTL
sequence it returns has length equal to the number of pin-state transitions
of the (possibly truncated) pin-state trace — via the pass-through branch
when the counts already agree, and via the attribution branch (where every
transition must be attributed and the matched times are interleaved back
into onset/offset order) otherwise. -/
theorem groom_pin_state_length (gpio : List Bool) (audio_times : List ℚ)
    (audio_polarities : List ℤ) (ts : List ℚ) (g ds : List ℚ)
    (h : groom_pin_state gpio audio_times audio_polarities ts = .ok (g, ds)) :
    g.length = (flipsOf (gpio.take (min ts.length gpio.length))).count true := by
  unfold groom_pin_state at h
  by_cases he : ts.length = gpio.length
  · rw [if_neg (by omega)] at h
    rw [groomChecked_ok_length gpio audio_times audio_polarities ts g ds h, he,
      Nat.min_self, List.take_length]
  · rw [if_pos he] at h
    by_cases h2 : ts.length < gpio.length
    · rw [if_pos h2] at h
      rw [groomChecked_ok_length (gpio.take ts.length) audio_times audio_polarities ts g ds h,
        Nat.min_eq_left (le_of_lt h2)]
    · rw [if_neg h2] at h
      exact Except.noConfusion h

/-- Witness for C2: a concrete successful attribution-branch run — pin state
`[F,F,T,T,F]` (two transitions) against three TTLs — returns a groomed
sequence of length two. -/
theorem groom_pin_state_length_w :
    ([1, 51 / 50] : List ℚ).length =
      (flipsOf (([false, false, true, true, false] : List Bool).take
        (min ([0, 1, 2, 3, 4] : List ℚ).length
          ([false, false, true, true, false] : List Bool).length))).count true :=
  groom_pin_state_length [false, false, true, true, false] [1, 51 / 50, 3 / 2] [1, -1, 1]
    [0, 1, 2, 3, 4] [1, 51 / 50] [2, 4] (by with_unfolding_all decide)

/-- Counterexample to C8 as stated: the polarity sequence `[1,-1,1]` strictly
alternates (all consecutive differences are ±2), so `groom_pin_state` on pin
state `[F,F,T,T,F]` and TTL times `[1.0, 1.02, 1.5]` does not fail the
polarity-alternation precondition — with frame times `[0,1,2,3,4]` it
completes without any fatal error. -/
theorem groom_pin_state_polarity_cx :
    groom_pin_state [false, false, true, true, false] [1, 51 / 50, 3 / 2] [1, -1, 1]
      [0, 1, 2, 3, 4] ≠ .error .polarity := by
  with_unfolding_all decide

/-- C8 (amended).  On pin-state trace `[F,F,T,T,F]` and audio TTL times
`[1.0, 1.02, 1.5]` with polarities `[1,-1,1]`, the alternation precondition
passes (odd length does not violate it), and with frame times `[0,1,2,3,4]`
`groom_pin_state` succeeds: the single rising transition is attributed to
onset `1.0`, the single falling transition to offset `1.02`, and the groomed
sequence `[1.0, 1.02]` is returned. -/
theorem groom_pin_state_polarity_ok :
    groom_pin_state [false, false, true, true, false] [1, 51 / 50, 3 / 2] [1, -1, 1]
      [0, 1, 2, 3, 4] = .ok ([1, 51 / 50], [2, 4]) := by
  with_unfolding_all decide

/-- C10.  `groom_pin_state` reconciles the trace lengths before anything
else: with more frame times than pin-state samples it fails fatally (before
any precondition check or matching); otherwise it truncates the pin state to
the first `len(ts)` entries (a no-op for equal lengths) and proceeds with the
groomed body. -/
theorem groom_pin_state_dims (gpio : List Bool) (audio_times : List ℚ)
    (audio_polarities : List ℤ) (ts : List ℚ) :
    groom_pin_state gpio audio_times audio_polarities ts =
      if gpio.length < ts.length then .error .sizeMismatch
      else groomChecked (gpio.take ts.length) audio_times audio_polarities ts := by
  unfold groom_pin_state
  by_cases he : ts.length = gpio.length
  · rw [if_neg (by omega), if_neg (by omega), he, List.take_length]
  · rw [if_pos (by omega)]
    by_cases h2 : ts.length < gpio.length
    · rw [if_pos h2, if_neg (by omega)]
    · rw [if_neg h2, if_pos (by omega)]

/-! ## Claim C3: `align_with_audio_safe` -/

/-- C3 (code defect).  On frame counter `[0,1,3,4]` (frame 2 dropped),
pin state `[F,F,F,T]`, raw times `[0..6]` and a TTL at `4.5`, the
per-fragment check of `align_with_audio_safe` passes (fragment `[0,1,3]` has
one missing frame and one surplus raw time), yet the function returns the
whole slice `timestamps[start:] = [1,2,3,4,5,6]` — the filtered fragments
`timestamps_split[i][count_frag]` are assigned into a local list that is
never read again, so the dropped frame's time `3` is still present instead
of the per-fragment filtered `[1,2,4,5,6]` the claim describes. -/
theorem align_with_audio_safe_returns_unfiltered :
    align_with_audio_safe [0, 1, 2, 3, 4, 5, 6] [9 / 2] [false, false, false, true]
      [0, 1, 3, 4] = .ok [1, 2, 3, 4, 5, 6] := by
  with_unfolding_all decide

/-! ## Claims C1, C4: `align_with_audio` -/

theorem allDiffPos_iff : ∀ xs : List ℚ, allDiffPos xs = true ↔ List.Chain' (· < ·) xs
  | [] => by simp [allDiffPos, npdiff]
  | [a] => by simp [allDiffPos, npdiff]
  | a :: b :: t => by
    have ih := allDiffPos_iff (b :: t)
    simp only [allDiffPos, npdiff, List.tail_cons, List.zipWith_cons_cons, List.all_cons,
      Bool.and_eq_true, decide_eq_true_eq, List.chain'_cons, sub_pos] at ih ⊢
    rw [ih]

theorem allDiffPosN_iff : ∀ xs : List ℕ, allDiffPosN xs = true ↔ List.Chain' (· < ·) xs
  | [] => by simp [allDiffPosN]
  | [a] => by simp [allDiffPosN]
  | a :: b :: t => by
    have ih := allDiffPosN_iff (b :: t)
    simp only [allDiffPosN, List.tail_cons, List.zipWith_cons_cons, List.all_cons,
      Bool.and_eq_true, decide_eq_true_eq, List.chain'_cons] at ih ⊢
    rw [ih]

theorem firstUptick_lt {ps : List Bool} (h : 0 < ps.length) :
    firstUptick ps < ps.length := by
  unfold firstUptick
  cases hf : ps.findIdx? (fun b => b) with
  | none => simpa using h
  | some i =>
    have := (List.findIdx?_eq_some_iff_findIdx_eq.mp hf).1
    simpa using this

/-- Whenever `align_with_audio` succeeds, the output has exactly one entry
per frame-counter entry (the final fancy indexing `ts[count]`). -/
theorem align_ok_length (T A : List ℚ) (P : List Bool) (C : List ℕ) (E : Bool)
    (l : List (Option ℚ)) (h : align_with_audio T A P C E = .ok l) :
    l.length = C.length := by
  unfold align_with_audio at h
  simp only [] at h
  repeat' split at h
  all_goals try (exact Except.noConfusion h)
  all_goals injection h with h'
  all_goals rw [← h', List.length_map]

/-- C1.  Under `align_with_audio`'s preconditions (counter and pin state of
equal length, counter and timestamps strictly increasing, rising transitions
at most the TTL count, non-negative start offset) and with the raw-times
window long enough to need no padding, the function succeeds; the returned
array always has exactly one entry per frame-counter entry, and its `i`-th
element is `timestamps[start + count[i]]` — so with zero drift and no
dropped frames the output equals the raw times at the counter-indexed
positions. -/
theorem align_with_audio_roundtrip (timestamps : List ℚ) (a0 : ℚ) (arest : List ℚ)
    (pin_state : List Bool) (count : List ℕ) (extrapolate_missing : Bool)
    (hlen : count.length = pin_state.length)
    (hcount : List.Chain' (· < ·) count)
    (hts : List.Chain' (· < ·) timestamps)
    (hrise : numRising pin_state ≤ (a0 :: arest).length)
    (hne : count ≠ [])
    (hstart : 0 ≤ awaStart timestamps a0 pin_state count)
    (hwin : (awaStart timestamps a0 pin_state count).toNat + count.getLastD 0 + 1
      ≤ timestamps.length) :
    (∀ (T A : List ℚ) (P : List Bool) (C : List ℕ) (E : Bool) (l : List (Option ℚ)),
        align_with_audio T A P C E = .ok l → l.length = C.length) ∧
      align_with_audio timestamps (a0 :: arest) pin_state count extrapolate_missing =
        .ok (count.map (fun c =>
          some (timestamps.getD ((awaStart timestamps a0 pin_state count).toNat + c) 0))) := by
  refine ⟨fun T A P C E l h => align_ok_length T A P C E l h, ?_⟩
  obtain ⟨c0, crest, rfl⟩ : ∃ c0 crest, count = c0 :: crest := by
    cases count with
    | nil => exact absurd rfl hne
    | cons a b => exact ⟨a, b, rfl⟩
  set s := (awaStart timestamps a0 pin_state (c0 :: crest)).toNat with hs
  set fu := firstUptick pin_state with hfudef
  set ft := searchsorted timestamps a0 with hftdef
  set cfu := (c0 :: crest).getD fu 0 with hcfudef
  set lastC := (c0 :: crest).getLastD 0 with hlastdef
  have hps_pos : 0 < pin_state.length := by
    rw [← hlen]
    simp
  have hfu : fu < (c0 :: crest).length := by
    have := firstUptick_lt hps_pos
    omega
  have hawa : awaStart timestamps a0 pin_state (c0 :: crest) = (ft : ℤ) - cfu := by
    unfold awaStart
    rw [← hftdef, ← hfudef, ← hcfudef]
    ring
  have hsval : s = ft - cfu ∧ cfu ≤ ft := by
    rw [hawa] at hstart hs
    constructor
    · omega
    · omega
  have hsft : s + cfu = ft := by omega
  have hlastmem : ∀ c ∈ (c0 :: crest), c ≤ lastC :=
    fun c hc => chain'_nat_mem_le_getLastD hcount hc
  have hlenle : (c0 :: crest).length ≤ lastC + 1 := chain'_nat_length_le hcount hne
  have hcfu_eq : cfu = (c0 :: crest)[fu] := List.getD_eq_getElem _ _ hfu
  have hcfu_le : cfu ≤ lastC := by
    refine hlastmem cfu ?_
    rw [hcfu_eq]
    exact List.getElem_mem hfu
  have hft_lt : ft < timestamps.length := by omega
  have hlenslice : ((timestamps.drop s).take (lastC + 1)).length = lastC + 1 := by
    rw [List.length_take, List.length_drop]
    omega
  -- element-wise description of the final array
  have hE1 : ∀ c ∈ (c0 :: crest),
      (((timestamps.drop s).take (lastC + 1)).map some).getD c none =
        some (timestamps.getD (s + c) 0) := by
    intro c hc
    have hcle : c ≤ lastC := hlastmem c hc
    have hclt : c < ((timestamps.drop s).take (lastC + 1)).length := by omega
    have hstlt : s + c < timestamps.length := by omega
    rw [List.getD_eq_getElem _ _ (by rw [List.length_map]; omega), List.getElem_map,
      List.getElem_take, List.getElem_drop, List.getD_eq_getElem _ _ hstlt]
  -- the final sanity check passes: searchsorted lands on the first uptick
  have hE2 : searchsortedO ((c0 :: crest).map
      (fun c => some (timestamps.getD (s + c) 0))) a0 = fu := by
    unfold searchsortedO
    refine takeWhile_length_eq _ _ fu (by rw [List.length_map]; omega) ?_ ?_
    · intro i hi hifu
      rw [List.length_map] at hi
      rw [List.getElem_map]
      have hci_le : (c0 :: crest)[i] ≤ lastC := hlastmem _ (List.getElem_mem hi)
      have hbound : s + (c0 :: crest)[i] < timestamps.length := by omega
      rw [List.getD_eq_getElem _ _ hbound]
      have hci_lt : (c0 :: crest)[i] < cfu := by
        rw [hcfu_eq]
        exact chain'_lt_getElem hcount hifu hi hfu
      have : timestamps[s + (c0 :: crest)[i]] < a0 := by
        rw [lt_searchsorted_iff hts a0 hbound, ← hftdef]
        omega
      simpa using this
    · intro hfl
      rw [List.length_map] at hfl
      rw [List.getElem_map]
      have hbound : s + (c0 :: crest)[fu] < timestamps.length := by
        rw [← hcfu_eq]
        omega
      rw [List.getD_eq_getElem _ _ hbound]
      have : ¬ timestamps[s + (c0 :: crest)[fu]] < a0 := by
        rw [lt_searchsorted_iff hts a0 hbound, ← hftdef, ← hcfu_eq]
        omega
      simpa using this
  -- now evaluate the function
  unfold align_with_audio
  rw [if_neg (by simp [hlen]), if_neg (not_not_intro ((allDiffPosN_iff _).mpr hcount)),
    if_neg (not_not_intro ((allDiffPos_iff _).mpr hts)), if_neg (not_not_intro hrise)]
  dsimp only
  rw [if_neg (not_lt.mpr hstart), ← hs, ← hlastdef]
  rw [if_neg (by omega : ¬ ((timestamps.drop s).take (lastC + 1)).length < (c0 :: crest).length)]
  dsimp only
  rw [if_neg (by rw [List.length_map]; omega), if_neg (by rw [List.length_map]; omega)]
  rw [List.map_congr_left (fun c hc => hE1 c hc)]
  rw [if_neg (not_not_intro hE2)]

/-- Witness for C1: counter `[0,1,2]`, pin state `[F,T,T]`, raw times
`[0,1,2,3]`, one TTL at `0.9`: the start offset is `0` and the output is the
raw times at the counter positions. -/
theorem align_with_audio_roundtrip_w :
    align_with_audio [0, 1, 2, 3] [9 / 10] [false, true, true] [0, 1, 2] true =
      .ok (([0, 1, 2] : List ℕ).map (fun c =>
        some (([0, 1, 2, 3] : List ℚ).getD
          ((awaStart [0, 1, 2, 3] (9 / 10) [false, true, true] [0, 1, 2]).toNat + c) 0))) :=
  (align_with_audio_roundtrip [0, 1, 2, 3] (9 / 10) [] [false, true, true] [0, 1, 2] true
    (by decide) (by simp [List.chain'_cons]; try norm_num)
    (by simp [List.chain'_cons]; try norm_num)
    (by with_unfolding_all decide) (by decide) (by with_unfolding_all decide)
    (by with_unfolding_all decide)).2

theorem range_getLastD {n : ℕ} (h : 0 < n) : (List.range n).getLastD 0 = n - 1 := by
  cases n with
  | zero => omega
  | succ m =>
    rw [List.range_succ, List.getLastD_eq_getLast?, List.getLast?_concat]
    rfl

theorem map_range_getD {α : Type} (l : List α) (n : ℕ) (d : α) (h : l.length = n) :
    (List.range n).map (fun c => l.getD c d) = l := by
  refine List.ext_getElem (by simp [h]) ?_
  intro i h1 h2
  simp only [List.getElem_map, List.getElem_range]
  rw [List.getD_eq_getElem _ _ h2]

/-- Counterexample to C4 as stated.  "Whenever the sliced window is shorter
than the frame counter the tail is padded recoverably (not fatally)" fails
on a gapped counter: counter `[0,1,3]` (frame 2 dropped), pin state
`[F,T,T]`, raw times `[0,1]` and a TTL at `0.5` satisfy every precondition
the function asserts, the window (2 entries) is shorter than the counter
(3 entries) and the padding step itself runs — but the function then aborts
fatally on `assert ts.size == count[-1] + 1` (3 ≠ 4), with either value of
`extrapolate_missing`. -/
theorem align_with_audio_padding_cx :
    align_with_audio [0, 1] [1 / 2] [false, true, true] [0, 1, 3] true =
      .error .sizeCheck ∧
    align_with_audio [0, 1] [1 / 2] [false, true, true] [0, 1, 3] false =
      .error .sizeCheck := by
  exact ⟨by with_unfolding_all decide, by with_unfolding_all decide⟩

/-- C4 (amended).  When the sliced raw-times window is shorter than the
frame counter, the padding step itself is recoverable, but the function as a
whole completes non-fatally only when the counter is gapless
(`count = [0..n-1]`; any dropped frame makes the later
`assert ts.size == count[-1]+1` fatal), the slice keeps at least two raw
times (a shorter slice crashes on `round` of a NaN median period), the first
rising transition — and with it the first TTL — still falls inside the
sliced window (else the final `searchsorted` assert is fatal), and the
inferred frame rate rounds to a positive integer.  Under those conditions:
with `extrapolate_missing=True`, `align_with_audio` succeeds and appends the
missing times spaced at `1/frate` — the reciprocal of the rounded inverse
median frame period inferred from the sliced raw times — after the last
sliced time; with `extrapolate_missing=False` it succeeds and pads with NaN
placeholders; in both cases the output length equals the counter length. -/
theorem align_with_audio_padding (timestamps : List ℚ) (a0 : ℚ) (arest : List ℚ)
    (pin_state : List Bool) (n : ℕ) (c0 : ℕ) (crest : List ℕ)
    (hcc : c0 :: crest = List.range n)
    (hlen : (c0 :: crest).length = pin_state.length)
    (hts : List.Chain' (· < ·) timestamps)
    (hrise : numRising pin_state ≤ (a0 :: arest).length)
    (hstart : 0 ≤ awaStart timestamps a0 pin_state (c0 :: crest))
    (hmin : awaStartNat timestamps a0 pin_state (c0 :: crest) + 2 ≤ timestamps.length)
    (hshort : timestamps.length < awaStartNat timestamps a0 pin_state (c0 :: crest) + n)
    (hfu : awaStartNat timestamps a0 pin_state (c0 :: crest) + firstUptick pin_state
      < timestamps.length)
    (hfr : 0 < pyround (1 / median (npdiff
      (timestamps.drop (awaStartNat timestamps a0 pin_state (c0 :: crest)))))) :
    (align_with_audio timestamps (a0 :: arest) pin_state (c0 :: crest) true =
      .ok ((timestamps.drop (awaStartNat timestamps a0 pin_state (c0 :: crest))).map some ++
        (List.range (n - (timestamps.length -
            awaStartNat timestamps a0 pin_state (c0 :: crest)))).map
          (fun k : ℕ => some (((k : ℚ) + 1) /
              ((pyround (1 / median (npdiff (timestamps.drop
                (awaStartNat timestamps a0 pin_state (c0 :: crest)))))) : ℚ) +
            (timestamps.drop (awaStartNat timestamps a0 pin_state (c0 :: crest))).getLastD 0)))) ∧
    (align_with_audio timestamps (a0 :: arest) pin_state (c0 :: crest) false =
      .ok ((timestamps.drop (awaStartNat timestamps a0 pin_state (c0 :: crest))).map some ++
        List.replicate (n - (timestamps.length -
          awaStartNat timestamps a0 pin_state (c0 :: crest))) none)) ∧
    ((timestamps.drop (awaStartNat timestamps a0 pin_state (c0 :: crest))).map some ++
      List.replicate (n - (timestamps.length -
        awaStartNat timestamps a0 pin_state (c0 :: crest))) none).length =
      (c0 :: crest).length := by
  unfold awaStartNat at hmin hshort hfu hfr ⊢
  set S := (awaStart timestamps a0 pin_state (c0 :: crest)).toNat with hS
  set fu := firstUptick pin_state with hfud
  set ft := searchsorted timestamps a0 with hftd
  have hlenn : (c0 :: crest).length = n := by rw [hcc, List.length_range]
  have hn : 0 < n := by
    rw [← hlenn]
    simp
  have hcount : List.Chain' (· < ·) (c0 :: crest) := by
    rw [hcc]
    exact List.chain'_iff_pairwise.mpr (List.pairwise_lt_range n)
  have hlast : (c0 :: crest).getLastD 0 = n - 1 := by rw [hcc]; exact range_getLastD hn
  have hps_pos : 0 < pin_state.length := by omega
  have hfult : fu < pin_state.length := firstUptick_lt hps_pos
  have hfun : fu < n := by omega
  have hcfu : (c0 :: crest).getD fu 0 = fu := by
    rw [hcc, List.getD_eq_getElem _ _ (by simpa using hfun), List.getElem_range]
  have hawa : awaStart timestamps a0 pin_state (c0 :: crest) = (ft : ℤ) - fu := by
    unfold awaStart
    rw [← hftd, ← hfud, hcfu]
    ring
  have hsval : S = ft - fu ∧ fu ≤ ft := by
    rw [hawa] at hS hstart
    omega
  have hslice_len : (timestamps.drop S).length = timestamps.length - S :=
    List.length_drop S timestamps
  have htake : (timestamps.drop S).take ((c0 :: crest).getLastD 0 + 1) =
      timestamps.drop S := by
    apply List.take_of_length_le
    rw [hslice_len, hlast]
    omega
  have hnd : (npdiff (timestamps.drop S)).length = (timestamps.length - S) - 1 := by
    unfold npdiff
    rw [List.length_zipWith, List.length_tail, hslice_len]
    omega
  obtain ⟨d, ds, hd⟩ : ∃ d ds, npdiff (timestamps.drop S) = d :: ds := by
    cases hnd' : npdiff (timestamps.drop S) with
    | nil =>
      rw [hnd'] at hnd
      simp at hnd
      omega
    | cons d ds => exact ⟨d, ds, rfl⟩
  have hdrop_ne : timestamps.drop S ≠ [] := by
    intro hemp
    rw [hemp] at hslice_len
    simp at hslice_len
    omega
  obtain ⟨lt0, hlt0⟩ : ∃ x, (timestamps.drop S).getLast? = some x :=
    ⟨(timestamps.drop S).getLast hdrop_ne, List.getLast?_eq_getLast _ hdrop_ne⟩
  have hlt0D : (timestamps.drop S).getLastD 0 = lt0 := by
    rw [List.getLastD_eq_getLast?, hlt0]
    rfl
  have hfr0 : pyround (1 / median (d :: ds)) ≠ 0 := by
    rw [← hd]
    omega
  have hE2 : ∀ rest : List (Option ℚ),
      searchsortedO ((timestamps.drop S).map some ++ rest) a0 = fu := by
    intro rest
    unfold searchsortedO
    refine takeWhile_length_eq _ _ fu
      (by rw [List.length_append, List.length_map, hslice_len]; omega) ?_ ?_
    · intro i hi hifu
      have hidrop : i < (timestamps.drop S).length := by rw [hslice_len]; omega
      have hSi : S + i < timestamps.length := by omega
      rw [List.getElem_append_left (by rw [List.length_map]; exact hidrop),
        List.getElem_map, List.getElem_drop]
      have hlta : timestamps[S + i] < a0 := by
        rw [lt_searchsorted_iff hts a0 hSi, ← hftd]
        omega
      simpa using hlta
    · intro hflen
      have hfud2 : fu < (timestamps.drop S).length := by rw [hslice_len]; omega
      have hSfu : S + fu < timestamps.length := by omega
      rw [List.getElem_append_left (by rw [List.length_map]; exact hfud2),
        List.getElem_map, List.getElem_drop]
      have hlta : ¬ timestamps[S + fu] < a0 := by
        rw [lt_searchsorted_iff hts a0 hSfu, ← hftd]
        omega
      simpa using hlta
  have key : ∀ em : Bool,
      align_with_audio timestamps (a0 :: arest) pin_state (c0 :: crest) em =
        .ok ((timestamps.drop S).map some ++
          (if em then
            (List.range (n - (timestamps.length - S))).map
              (fun k : ℕ => some (((k : ℚ) + 1) /
                  ((pyround (1 / median (npdiff (timestamps.drop S)))) : ℚ) + lt0))
          else List.replicate (n - (timestamps.length - S)) none)) := by
    intro em
    unfold align_with_audio
    rw [if_neg (by simp [hlen]), if_neg (not_not_intro ((allDiffPosN_iff _).mpr hcount)),
      if_neg (not_not_intro ((allDiffPos_iff _).mpr hts)), if_neg (not_not_intro hrise)]
    dsimp only
    rw [if_neg (not_lt.mpr hstart), ← hS, htake]
    rw [if_pos (by rw [hslice_len]; omega :
      (timestamps.drop S).length < (c0 :: crest).length)]
    rw [hd, hlt0]
    dsimp only
    rw [← hd]
    have hfr0' : ¬ pyround (1 / median (npdiff (timestamps.drop S))) = 0 := by omega
    simp only [if_neg hfr0']
    rw [show (c0 :: crest).length - (timestamps.drop S).length =
      n - (timestamps.length - S) from by rw [hslice_len, hlenn]]
    set T2 := (timestamps.drop S).map some ++
      (if em then
        (List.range (n - (timestamps.length - S))).map
          (fun k : ℕ => some (((k : ℚ) + 1) /
            ((pyround (1 / median (npdiff (timestamps.drop S)))) : ℚ) + lt0))
      else List.replicate (n - (timestamps.length - S)) none) with hT2
    have hT2len : T2.length = n := by
      rw [hT2]
      cases em <;>
        simp only [List.length_append, List.length_map, List.length_range,
          List.length_replicate, if_true, if_false, Bool.false_eq_true] <;>
        omega
    rw [if_neg (by simp only [hT2len, hlenn]; omega),
      if_neg (by simp only [hT2len, hlast]; omega)]
    rw [hcc, map_range_getD T2 n none hT2len]
    rw [if_neg (not_not_intro (by rw [hT2]; exact hE2 _))]
  refine ⟨?_, ?_, ?_⟩
  · have := key true
    rw [if_pos rfl] at this
    rw [this, hlt0D]
  · have := key false
    rw [if_neg (by simp)] at this
    rw [this]
  · rw [List.length_append, List.length_map, List.length_replicate, hslice_len, hlenn]
    omega

/-- Witness for C4 (the spec scenario): counter `[0,1,2,3,4]`, a 5-element
pin state, 4 raw times at 10 Hz: with extrapolation the output has length 5
and the last value `0.4` is extrapolated at the inferred frame rate; without
extrapolation the last entry is a NaN placeholder. -/
theorem align_with_audio_padding_w :
    align_with_audio [0, 1/10, 1/5, 3/10] [1/20] [false, true, true, true, true]
        [0, 1, 2, 3, 4] true =
      .ok [some 0, some (1/10), some (1/5), some (3/10), some (2/5)] ∧
    align_with_audio [0, 1/10, 1/5, 3/10] [1/20] [false, true, true, true, true]
        [0, 1, 2, 3, 4] false =
      .ok [some 0, some (1/10), some (1/5), some (3/10), none] := by
  have h := align_with_audio_padding [0, 1/10, 1/5, 3/10] (1/20) [] [false, true, true, true, true]
    5 0 [1, 2, 3, 4] (by decide) (by decide) (by simp [List.chain'_cons]; try norm_num)
    (by decide) (by with_unfolding_all decide) (by with_unfolding_all decide)
    (by with_unfolding_all decide) (by with_unfolding_all decide)
    (by with_unfolding_all decide)
  refine ⟨?_, ?_⟩
  · rw [h.1]
    with_unfolding_all decide
  · rw [h.2.1]
    with_unfolding_all decide

/-! ## Claim C5: `_times_from_bpod` gap interpolation -/

theorem camDurs_length (cams : List (List ℚ)) : (camDurs cams).length = cams.length - 1 := by
  unfold camDurs
  rw [List.length_zipWith, List.length_tail, List.length_map, List.length_map]
  omega

theorem camNmiss_length (cams : List (List ℚ)) :
    (camNmiss cams).length = cams.length - 1 := by
  unfold camNmiss
  rw [List.length_map, camDurs_length]

theorem withGaps_length : ∀ (cams : List (List ℚ)) (durs : List ℚ) (nms : List ℤ),
    durs.length = cams.length - 1 → nms.length = cams.length - 1 →
    (withGaps cams durs nms).length =
      (cams.map List.length).sum + (nms.map Int.toNat).sum := by
  intro cams
  induction cams with
  | nil =>
    intro durs nms h1 h2
    simp at h1 h2
    simp [withGaps, h1, h2]
  | cons c rest ih =>
    intro durs nms h1 h2
    cases rest with
    | nil =>
      simp at h1 h2
      simp [withGaps, h1, h2]
    | cons c2 rest' =>
      simp only [List.length_cons] at h1 h2
      cases durs with
      | nil => simp at h1
      | cons dur durs' =>
        cases nms with
        | nil => simp at h2
        | cons nm nms' =>
          have ihx := ih durs' nms' (by simp at h1 ⊢; omega) (by simp at h2 ⊢; omega)
          simp only [withGaps, List.length_append, List.length_map, List.length_range,
            List.map_cons, List.sum_cons]
          rw [ihx]
          simp only [List.map_cons, List.sum_cons]
          omega

theorem sum_toNat_of_nonneg : ∀ (nms : List ℤ), (∀ x ∈ nms, 0 ≤ x) →
    ((nms.map Int.toNat).sum : ℤ) = nms.sum := by
  intro nms
  induction nms with
  | nil => intro _; simp
  | cons x t ih =>
    intro h
    have hx : 0 ≤ x := h x (List.mem_cons_self _ _)
    simp only [List.map_cons, List.sum_cons, Nat.cast_add]
    rw [ih (fun y hy => h y (List.mem_cons_of_mem _ hy))]
    omega

/-- The preallocated-array fill loop is, when every inter-trial gap count is
non-negative and the allocation is exact, the concatenation of the trials'
times with the interpolated gap times. -/
theorem fillLoop_ok : ∀ (cams : List (List ℚ)) (durs : List ℚ) (nms : List ℤ)
    (acc : List ℚ) (N : ℕ),
    cams ≠ [] → (∀ nm ∈ nms, 0 ≤ nm) →
    durs.length = cams.length - 1 → nms.length = cams.length - 1 →
    N = acc.length + (withGaps cams durs nms).length →
    fillLoop N cams durs nms acc = .ok (acc ++ withGaps cams durs nms) := by
  intro cams
  induction cams with
  | nil => intro durs nms acc N h _ _ _ _; exact absurd rfl h
  | cons c rest ih =>
    intro durs nms acc N _ hnm h1 h2 hN
    cases rest with
    | nil =>
      simp only [withGaps] at hN ⊢
      unfold fillLoop
      rw [if_neg (by rw [hN]; omega)]
      rw [show N - (acc.length + c.length) = 0 from by rw [hN]; omega]
      simp
    | cons c2 rest' =>
      simp only [List.length_cons] at h1 h2
      cases durs with
      | nil => simp at h1
      | cons dur durs' =>
        cases nms with
        | nil => simp at h2
        | cons nm nms' =>
          have hnm0 : 0 ≤ nm := hnm nm (List.mem_cons_self _ _)
          simp only [withGaps, List.length_append, List.length_map, List.length_range] at hN
          unfold fillLoop
          rw [if_neg (by omega)]
          rw [if_neg (not_lt.mpr hnm0)]
          rw [if_neg (by rw [List.length_append]; omega)]
          rw [ih durs' nms'
            (acc ++ c ++ (List.range nm.toNat).map
              (fun k : ℕ => c.getLastD 0 + dur / ((nm : ℚ) + 1) * ((k : ℚ) + 1))) N
            (by simp) (fun x hx => hnm x (List.mem_cons_of_mem _ hx))
            (by simp at h1 ⊢; omega) (by simp at h2 ⊢; omega)
            (by simp only [List.length_append, List.length_map, List.length_range]; omega)]
          simp [withGaps, List.getLastD_eq_getLast?, List.append_assoc]

/-- C5.  In the Bpod trial-time reconstruction, between each pair of
consecutive kept trials exactly `round(gap * frate) - 1` synthetic frame
times are inserted (`camNmiss`), evenly spaced across the gap
(`gap/(nmiss+1)` apart, `withGaps`), where `gap` runs from the previous
trial's last frame time to the next trial's first frame time and `frate` is
the reciprocal of the median of the per-trial median frame periods. -/
theorem times_from_bpod_gaps (trials : List (List ℚ × List ℚ)) (nframes : ℕ)
    (cams : List (List ℚ))
    (hmap : trials.mapM (fun t => processTrial t.1 t.2) = .ok cams)
    (hcne : cams ≠ [])
    (hne : ∀ c ∈ cams, c ≠ [])
    (hmed : cams.filterMap (fun c =>
      if 2 ≤ c.length then some (median (npdiff c)) else none) ≠ [])
    (hnm : ∀ nm ∈ camNmiss cams, 0 ≤ nm)
    (hvid : nframes ≤ (withGaps cams (camDurs cams) (camNmiss cams)).length)
    (hinc : allDiffPos (withGaps cams (camDurs cams) (camNmiss cams)) = true) :
    times_from_bpod trials nframes = .ok (withGaps cams (camDurs cams) (camNmiss cams)) := by
  have hWlen : (withGaps cams (camDurs cams) (camNmiss cams)).length =
      (cams.map List.length).sum + ((camNmiss cams).map Int.toNat).sum :=
    withGaps_length cams (camDurs cams) (camNmiss cams)
      (camDurs_length cams) (camNmiss_length cams)
  have hcast : (((camNmiss cams).map Int.toNat).sum : ℤ) = (camNmiss cams).sum :=
    sum_toNat_of_nonneg _ hnm
  unfold times_from_bpod
  rw [hmap]
  dsimp only
  rw [if_neg (by
    simp only [List.any_eq_true, not_exists, not_and]
    intro c hc
    simpa [List.isEmpty_iff] using hne c hc)]
  rw [if_neg (by simpa [List.isEmpty_iff] using hmed)]
  rw [if_neg (by omega : ¬ ((cams.map List.length).sum : ℤ) + (camNmiss cams).sum < 0)]
  rw [fillLoop_ok cams (camDurs cams) (camNmiss cams) []
    (((cams.map List.length).sum : ℤ) + (camNmiss cams).sum).toNat hcne hnm
    (camDurs_length cams) (camNmiss_length cams)
    (by simp only [List.length_nil, hWlen]; omega)]
  dsimp only
  rw [List.nil_append]
  rw [if_neg (not_lt.mpr hvid)]
  rw [if_neg (not_not_intro hinc)]

/-- Witness for C5: two 10 Hz trials separated by a 2-second gap produce
exactly `round(2*10) - 1 = 19` interpolated points, evenly spaced `0.1`
apart across the gap. -/
theorem times_from_bpod_gaps_w :
    times_from_bpod [([0, 1/10, 1/5], [1/20, 3/20, 1/4]),
        ([11/5, 23/10, 12/5], [9/4, 47/20, 49/20])] 0 =
      .ok [0, 1/10, 1/5,
        3/10, 2/5, 1/2, 3/5, 7/10, 4/5, 9/10, 1, 11/10, 6/5, 13/10, 7/5, 3/2,
        8/5, 17/10, 9/5, 19/10, 2, 21/10,
        11/5, 23/10, 12/5] := by
  rw [times_from_bpod_gaps
    [([0, 1/10, 1/5], [1/20, 3/20, 1/4]), ([11/5, 23/10, 12/5], [9/4, 47/20, 49/20])] 0
    [[0, 1/10, 1/5], [11/5, 23/10, 12/5]]
    (by with_unfolding_all decide) (by with_unfolding_all decide)
    (by with_unfolding_all decide) (by with_unfolding_all decide)
    (by with_unfolding_all decide) (Nat.zero_le _) (by with_unfolding_all decide)]
  with_unfolding_all decide
